import Mathlib

/-!
# Verification of the ronin-cnc archive-and-codec subsystem

Shallow embedding of the core algorithms of the repository:

* `src/platform/src/compression/lcw.rs` — LCW compression codec
  (`lcw_decompress`, `lcw_compress`, `find_match`, `lcw_max_compressed_size`)
* `src/platform/src/util/crc.rs` — Westwood rotate-and-add hash
  (`westwood_crc`, `westwood_crc_filename`, streaming `WestwoodCrc`)
* `src/platform/src/crypto/rsa.rs` — minimal BigUint and RSA key recovery
  (`BigUint` operations, `mod_pow`, `decrypt_mix_key`)
* `src/platform/src/assets/mix.rs` — MIX archive model (`read_entry`, `find`)

Byte strings are modelled as `List Nat` (each element intended `< 256`);
machine-integer wrap-around is modelled by explicit `% 2 ^ 32` / `% 2 ^ 64`.
Loops that are not structurally recursive in the source are given an explicit
fuel argument together with lemmas showing the chosen fuel suffices.
-/

instance {ε α : Type} [DecidableEq ε] [DecidableEq α] : DecidableEq (Except ε α) :=
  fun a b =>
    match a, b with
    | .ok x, .ok y =>
      if h : x = y then isTrue (by rw [h])
      else isFalse (by intro hh; cases hh; exact h rfl)
    | .error x, .error y =>
      if h : x = y then isTrue (by rw [h])
      else isFalse (by intro hh; cases hh; exact h rfl)
    | .ok _, .error _ => isFalse (by intro h; cases h)
    | .error _, .ok _ => isFalse (by intro h; cases h)

namespace RoninCnc


/-- Error type used by the LCW codec (`PlatformError::InvalidData` and
`PlatformError::BufferTooSmall` as used by `lcw.rs`). -/
inductive LcwError where
  | invalidData
  | bufferTooSmall
deriving DecidableEq, Repr

/-! ## LCW decompression (`lcw_decompress` in `lcw.rs`)

The destination buffer `dest: &mut [u8]` is modelled by its capacity
`destLen : Nat` together with the list `out` of bytes written so far
(`out.length` is `dst_pos`; the function only ever reads `dest` below
`dst_pos`, so this captures the source exactly).  On success the Rust
function returns `dst_pos` and the data in `dest[..dst_pos]`; the embedding
returns that written prefix. -/

/-- Literal copy loop of `lcw_decompress`:
`for _ in 0..count { if src_pos >= source.len() || dst_pos >= dest.len() { break; } ... }`.
Returns the remaining source and the extended output. -/
def litCopy : Nat → List Nat → List Nat → Nat → (List Nat × List Nat)
  | 0, src, out, _ => (src, out)
  | c + 1, src, out, destLen =>
    match src with
    | [] => ([], out)
    | b :: rest =>
      if destLen ≤ out.length then (b :: rest, out)
      else litCopy c rest (out ++ [b]) destLen

/-- Back-reference copy loop of `lcw_decompress`:
`for i in 0..count { if dst_pos >= dest.len() { break; } dest[dst_pos] = dest[ref_start + i]; ... }`. -/
def backrefCopy : Nat → List Nat → Nat → Nat → List Nat
  | 0, out, _, _ => out
  | c + 1, out, refIdx, destLen =>
    if destLen ≤ out.length then out
    else backrefCopy c (out ++ [out.getD refIdx 0]) (refIdx + 1) destLen

/-- Result of one iteration of the `lcw_decompress` main loop. -/
inductive LcwStepRes where
  | cont (src out : List Nat)
  | done (out : List Nat)
  | fail (e : LcwError)
deriving DecidableEq, Repr

/-- One iteration of the `while src_pos < source.len()` loop of
`lcw_decompress`: read a command byte and dispatch.
`cmd & 0x80` / `cmd & 0x40` are `cmd.testBit 7` / `cmd.testBit 6`;
`cmd & 0x3F = cmd % 64`, `(x << 8) | low = x * 256 + low` (for byte `low`),
`(cmd >> 4) & 0x07 = cmd / 16 % 8`, `(cmd & 0x0F) = cmd % 16`. -/
def lcwStep (src out : List Nat) (destLen : Nat) : LcwStepRes :=
  match src with
  | [] => .done out
  | cmd :: rest =>
    if cmd = 0 then .done out
    else if cmd.testBit 7 then
      if cmd.testBit 6 then
        -- long literal (0xC0-0xFF): 14-bit count from one extra byte
        match rest with
        | [] => .fail .invalidData
        | low :: rest2 =>
          let count := (cmd % 64) * 256 + low + 1
          let r := litCopy count rest2 out destLen
          .cont r.1 r.2
      else
        -- short literal (0x80-0xBF): 6-bit count
        let count := cmd % 64 + 1
        let r := litCopy count rest out destLen
        .cont r.1 r.2
    else
      -- back-reference (0x01-0x7F)
      let count := cmd / 16 % 8 + 3
      match rest with
      | [] => .fail .invalidData
      | low :: rest2 =>
        let offset := cmd % 16 * 256 + low
        if offset = 0 ∨ out.length < offset then .fail .invalidData
        else .cont rest2 (backrefCopy count out (out.length - offset) destLen)

/-- Driver for the `lcw_decompress` loop.  Each iteration consumes at least
one source byte, so fuel `src.length + 1` always suffices (see
`lcwRun_fuel_irrelevant`); running out of fuel is unreachable from
`lcw_decompress`. -/
def lcwRun : Nat → List Nat → List Nat → Nat → Except LcwError (List Nat)
  | 0, _, out, _ => .ok out
  | fuel + 1, src, out, destLen =>
    match lcwStep src out destLen with
    | .done o => .ok o
    | .fail e => .error e
    | .cont src2 out2 => lcwRun fuel src2 out2 destLen

/-- `lcw_decompress(source, dest)`: returns the written prefix of `dest`
(whose length is the returned `dst_pos`). -/
def lcw_decompress (source : List Nat) (destLen : Nat) : Except LcwError (List Nat) :=
  lcwRun (source.length + 1) source [] destLen

/-! ## LCW compression (`lcw_compress`, `find_match` in `lcw.rs`) -/

/-- Inner comparison loop of `find_match`:
`while len < max_match && data[ref_pos + len] == data[pos + len] { len += 1 }`,
with `fuel = max_match` (all reads are in range when called from
`find_match`, so `getD _ 0` is exact). -/
def matchLen (data : List Nat) : Nat → Nat → Nat → Nat
  | _, _, 0 => 0
  | refPos, pos, fuel + 1 =>
    if data.getD refPos 0 = data.getD pos 0 then
      matchLen data (refPos + 1) (pos + 1) fuel + 1
    else 0

/-- Search loop of `find_match`, iterating `ref_pos` from `pos - 1` down to
`search_start`; the remaining iteration count `c` encodes
`ref_pos = search_start + c - 1`.  Mirrors the update condition
`len >= MIN_MATCH && len >= best_len` and the early exit
`best_len == MAX_BACKREF_MATCH && best_offset == 1`. -/
def findMatchLoop (data : List Nat) (pos maxMatch searchStart : Nat) :
    Nat → (Nat × Nat) → (Nat × Nat)
  | 0, best => best
  | c + 1, best =>
    let refPos := searchStart + c
    let len := matchLen data refPos pos maxMatch
    if 3 ≤ len ∧ best.1 ≤ len then
      let b := (len, pos - refPos)
      if b.1 = 10 ∧ b.2 = 1 then b
      else findMatchLoop data pos maxMatch searchStart c b
    else findMatchLoop data pos maxMatch searchStart c best

/-- `find_match(data, pos)`: best back-reference `(length, offset)` at `pos`.
`MAX_OFFSET = 4095`, `MAX_BACKREF_MATCH = 10`, `MIN_MATCH = 3`. -/
def find_match (data : List Nat) (pos : Nat) : Nat × Nat :=
  if pos = 0 then (0, 0)
  else
    findMatchLoop data pos (min 10 (data.length - pos)) (pos - min pos 4095)
      (min pos 4095) (0, 0)

/-- First byte of a back-reference token:
`((match_len - 3) & 0x07) << 4 | (match_offset >> 8) & 0x0F`
(the two operands occupy disjoint bit ranges, so `|` is `+`). -/
def brFirstByte (matchLen matchOffset : Nat) : Nat :=
  (matchLen - 3) % 8 * 16 + matchOffset / 256 % 16

/-- Literal-run scan of `lcw_compress`:
`while src_pos + literal_count < source.len() && literal_count < 63 { ... }`,
breaking when the match at `src_pos + literal_count` has length `≥ 3` and a
nonzero first byte.  Fuel `63` suffices since the count starts at 1 and the
loop stops at 63. -/
def literalRunLoop (s : List Nat) (srcPos : Nat) : Nat → Nat → Nat
  | 0, lc => lc
  | fuel + 1, lc =>
    if srcPos + lc < s.length ∧ lc < 63 then
      let fm := find_match s (srcPos + lc)
      if 3 ≤ fm.1 ∧ brFirstByte fm.1 fm.2 ≠ 0 then lc
      else literalRunLoop s srcPos fuel (lc + 1)
    else lc

/-- The emission chosen by one iteration of the `lcw_compress` main loop. -/
inductive CompChoice where
  | backref (fb lo consume : Nat)
  | literal (lc : Nat)
deriving DecidableEq, Repr

/-- Decision logic of one `lcw_compress` iteration: emit a back-reference iff
`match_len >= MIN_MATCH` and its first byte is nonzero (a zero first byte
would collide with the end marker); otherwise scan a literal run. -/
def compChoice (s : List Nat) (srcPos : Nat) : CompChoice :=
  let fm := find_match s srcPos
  if 3 ≤ fm.1 ∧ brFirstByte fm.1 fm.2 ≠ 0 then
    .backref (brFirstByte fm.1 fm.2) (fm.2 % 256) fm.1
  else .literal (literalRunLoop s srcPos 63 1)

/-- Driver for the `lcw_compress` loop over `src_pos`, with output modelled
as the list of bytes written so far and `destCap = dest.len()`.  Each
iteration advances `src_pos` by at least 1, so fuel `s.length + 1` always
suffices; the fuel-exhaustion branch is unreachable from `lcw_compress`. -/
def compRun (s : List Nat) : Nat → Nat → List Nat → Nat → Except LcwError (List Nat)
  | 0, _, out, _ => .ok out
  | fuel + 1, srcPos, out, destCap =>
    if srcPos < s.length then
      match compChoice s srcPos with
      | .backref fb lo consume =>
        -- `if dst_pos + 2 > dest.len() { return Err(BufferTooSmall) }`
        if destCap < out.length + 2 then .error .bufferTooSmall
        else compRun s fuel (srcPos + consume) (out ++ [fb, lo]) destCap
      | .literal lc =>
        -- `if dst_pos + 1 + literal_count > dest.len() { return Err(BufferTooSmall) }`
        if destCap < out.length + 1 + lc then .error .bufferTooSmall
        else
          -- command byte `0x80 | (literal_count - 1)` followed by the literals
          compRun s fuel (srcPos + lc)
            (out ++ (128 + (lc - 1)) :: ((s.drop srcPos).take lc)) destCap
    else
      -- end marker: `if dst_pos >= dest.len() { return Err(BufferTooSmall) }`
      if destCap ≤ out.length then .error .bufferTooSmall
      else .ok (out ++ [0])

/-- `lcw_compress(source, dest)`: returns the written prefix of `dest`. -/
def lcw_compress (source : List Nat) (destCap : Nat) : Except LcwError (List Nat) :=
  compRun source (source.length + 1) 0 [] destCap

/-- `lcw_max_compressed_size(n) = n * 65 / 64 + 2`. -/
def lcw_max_compressed_size (uncompressedSize : Nat) : Nat :=
  uncompressedSize * 65 / 64 + 2

/-- Invariant carried by `findMatchLoop`'s best candidate. -/
def FMGood (data : List Nat) (pos maxMatch searchStart : Nat) (b : Nat × Nat) : Prop :=
  3 ≤ b.1 ∧ b.1 ≤ maxMatch ∧ 1 ≤ b.2 ∧ b.2 ≤ pos - searchStart ∧ b.2 ≤ pos ∧
    ∀ i < b.1, data.getD (pos - b.2 + i) 0 = data.getD (pos + i) 0

/-! ## Westwood rotate-and-add hash (`crc.rs`)

`westwood_crc` and the streaming `WestwoodCrc` work on `u32` state; `u32`
values are modelled as `Nat` with explicit `% 2 ^ 32`. -/
/-- `u32::rotate_left(x, 1)` for `x < 2 ^ 32`. -/
def rotl1 (x : Nat) : Nat := 2 * x % 2 ^ 32 + x / 2 ^ 31

/-- State of the streaming `WestwoodCrc` (fields `crc`, `staging`, `index`). -/
structure WCrcState where
  crc : Nat
  staging : Nat
  index : Nat
deriving DecidableEq, Repr

/-- One byte of `WestwoodCrc::update` (also the body of the leading-bytes
loop of `westwood_crc`): `staging |= byte << (index * 8); index += 1;` then
fold and reset when four bytes are staged. -/
def wByteStep (st : WCrcState) (b : Nat) : WCrcState :=
  let staging := st.staging ||| (b <<< (st.index * 8))
  let index := st.index + 1
  if index = 4 then
    ⟨(rotl1 st.crc + staging) % 2 ^ 32, 0, 0⟩
  else
    ⟨st.crc, staging, index⟩

/-- Leading-bytes loop of `westwood_crc`:
`while bytes_remaining > 0 && index < 4 { ... }`.  Returns the final state
and the unconsumed bytes. -/
def wPhase1 : List Nat → WCrcState → (WCrcState × List Nat)
  | [], st => (st, [])
  | b :: rest, st =>
    if st.index < 4 then wPhase1 rest (wByteStep st b)
    else (st, b :: rest)

/-- Aligned-chunk loop of `westwood_crc`: `while bytes_remaining >= 4`,
folding `u32::from_le_bytes` chunks. -/
def wPhase2 : List Nat → Nat → (Nat × List Nat)
  | b0 :: b1 :: b2 :: b3 :: rest, crc =>
    wPhase2 rest ((rotl1 crc + (b0 + 256 * b1 + 65536 * b2 + 16777216 * b3)) % 2 ^ 32)
  | l, crc => (crc, l)

/-- Trailing-bytes loop of `westwood_crc`: stages the remaining `< 4` bytes. -/
def wPhase3 : List Nat → Nat → Nat → (Nat × Nat)
  | [], staging, index => (staging, index)
  | b :: rest, staging, index =>
    wPhase3 rest (staging ||| (b <<< (index * 8))) (index + 1)

/-- `westwood_crc(data)`: the one-shot rotate-and-add hash, embedded with the
same three loops and final partial-staging fold as the source. -/
def westwood_crc (data : List Nat) : Nat :=
  let p1 := wPhase1 data ⟨0, 0, 0⟩
  let p2 := wPhase2 p1.2 p1.1.crc
  let p3 := wPhase3 p2.2 p1.1.staging p1.1.index
  if 0 < p3.2 then (rotl1 p2.1 + p3.1) % 2 ^ 32 else p2.1

/-- `WestwoodCrc::new()`. -/
def WestwoodCrc.new : WCrcState := ⟨0, 0, 0⟩

/-- `WestwoodCrc::update(data)`: processes every byte through `wByteStep`. -/
def WestwoodCrc.update (st : WCrcState) (data : List Nat) : WCrcState :=
  data.foldl wByteStep st

/-- `WestwoodCrc::finalize()`: folds any staged bytes into the hash. -/
def WestwoodCrc.finalize (st : WCrcState) : Nat :=
  if 0 < st.index then (rotl1 st.crc + st.staging) % 2 ^ 32 else st.crc

/-- `westwood_crc_filename(name)`: ASCII-uppercases the name, then hashes.
Names are modelled as their byte lists. -/
def asciiUpper (b : Nat) : Nat := if 97 ≤ b ∧ b ≤ 122 then b - 32 else b

/-- `char::to_ascii_lowercase` on a byte. -/
def asciiLower (b : Nat) : Nat := if 65 ≤ b ∧ b ≤ 90 then b + 32 else b

def westwood_crc_filename (name : List Nat) : Nat :=
  westwood_crc (name.map asciiUpper)

/-! ## MIX archive model (`mix.rs`)

The backing file is modelled as its byte list; `File::open`/`seek`/
`read_exact` become index arithmetic on it (`read_exact` of `n > 0` bytes at
position `p` succeeds iff `p + n` is within the file; reading zero bytes
always succeeds). -/
/-- `MixError` (payload strings omitted). -/
inductive MixErr where
  | ioError
  | invalidHeader
  | invalidFormat
  | fileNotFound
  | decryptionFailed
deriving DecidableEq, Repr

/-- Reinterpret a `u32` as an `i32` (`westwood_crc_filename(..) as i32`). -/
def toI32 (x : Nat) : Int :=
  if x < 2 ^ 31 then (x : Int) else (x : Int) - 2 ^ 32

/-- `MixEntry` (`crc: i32`, `offset: u32`, `size: u32`). -/
structure MixEntry where
  crc : Int
  offset : Nat
  size : Nat
deriving DecidableEq, Repr

/-- `MixHeader`. -/
structure MixHeader where
  fileCount : Nat
  dataSize : Nat
  isExtended : Bool
  hasDigest : Bool
  isEncrypted : Bool
deriving DecidableEq, Repr

/-- `MixFile` (the `path`/`File` pair is modelled by the file's bytes). -/
structure MixFileM where
  fileBytes : List Nat
  header : MixHeader
  entries : List MixEntry
  dataStart : Nat
  cachedData : Option (List Nat)
deriving DecidableEq, Repr

/-- Little-endian `u16` at `pos`. -/
def readLE16 (bs : List Nat) (pos : Nat) : Nat :=
  bs.getD pos 0 + 256 * bs.getD (pos + 1) 0

/-- Little-endian `u32` at `pos`. -/
def readLE32 (bs : List Nat) (pos : Nat) : Nat :=
  bs.getD pos 0 + 256 * bs.getD (pos + 1) 0 + 65536 * bs.getD (pos + 2) 0 +
    16777216 * bs.getD (pos + 3) 0

/-- `MixEntry::from_bytes` on the 12 bytes at `pos`. -/
def entryAt (bs : List Nat) (pos : Nat) : MixEntry :=
  ⟨toI32 (readLE32 bs pos), readLE32 bs (pos + 4), readLE32 bs (pos + 8)⟩

/-- `MixFile::read_entries`: `count` consecutive 12-byte records starting at
`pos`; fails (like `read_exact`) if the file is too short. -/
def parseEntries (bs : List Nat) : Nat → Nat → Option (List MixEntry)
  | _, 0 => some []
  | pos, count + 1 =>
    if pos + 12 ≤ bs.length then
      (parseEntries bs (pos + 12) count).map (entryAt bs pos :: ·)
    else none

/-- The plain-format branch of `MixFile::open` (first 16-bit field nonzero).
The extended/encrypted branches are not needed by the claims and are mapped
to `invalidHeader` here. -/
def openPlain (bytes : List Nat) : Except MixErr MixFileM :=
  if bytes.length < 4 then .error .ioError
  else if readLE16 bytes 0 = 0 then .error .invalidHeader
  else if bytes.length < 6 then .error .ioError
  else
    match parseEntries bytes 6 (readLE16 bytes 0) with
    | none => .error .ioError
    | some es =>
      .ok ⟨bytes, ⟨readLE16 bytes 0, readLE32 bytes 2, false, false, false⟩, es,
        6 + 12 * readLE16 bytes 0, none⟩

/-- `MixFile::cache`: reads the whole `data_size`-byte payload region. -/
def mixCache (mf : MixFileM) : Except MixErr MixFileM :=
  match mf.cachedData with
  | some _ => .ok mf
  | none =>
    if mf.header.dataSize ≠ 0 ∧
        mf.fileBytes.length < mf.dataStart + mf.header.dataSize then .error .ioError
    else
      .ok { mf with
        cachedData := some ((mf.fileBytes.drop mf.dataStart).take mf.header.dataSize) }

/-- `MixFile::read_entry`: cached reads are bounds-checked against the cache
buffer; file-backed reads seek to `data_start + offset` and `read_exact`
`size` bytes (failing only if that runs past the physical end of file). -/
def read_entry (mf : MixFileM) (e : MixEntry) : Except MixErr (List Nat) :=
  match mf.cachedData with
  | some data =>
    if data.length < e.offset + e.size then .error .invalidFormat
    else .ok ((data.drop e.offset).take e.size)
  | none =>
    if e.size ≠ 0 ∧ mf.fileBytes.length < mf.dataStart + e.offset + e.size then
      .error .ioError
    else .ok ((mf.fileBytes.drop (mf.dataStart + e.offset)).take e.size)

/-- `slice::binary_search_by` loop (left/right/size state as in the Rust
standard library); returns `some idx` on a hit, `none` for `Err(_)`. -/
def binSearchLoop (entries : List MixEntry) (k : Int) :
    Nat → Nat → Nat → Nat → Option Nat
  | 0, _, _, _ => none
  | fuel + 1, left, right, size =>
    if left < right then
      let mid := left + size / 2
      match compare (entries.getD mid ⟨0, 0, 0⟩).crc k with
      | .lt => binSearchLoop entries k fuel (mid + 1) right (right - (mid + 1))
      | .gt => binSearchLoop entries k fuel left mid (mid - left)
      | .eq => some mid
    else none

/-- `MixFile::find_by_crc`: binary search by signed CRC. -/
def find_by_crc (entries : List MixEntry) (crc : Int) : Option MixEntry :=
  match binSearchLoop entries crc (entries.length + 1) 0 entries.length
      entries.length with
  | some idx => some (entries.getD idx ⟨0, 0, 0⟩)
  | none => none

/-- `MixFile::find`: hash the filename (as a signed 32-bit value), then
binary-search the entry table. -/
def mixFind (entries : List MixEntry) (name : List Nat) : Option MixEntry :=
  find_by_crc entries (toI32 (westwood_crc_filename name))

/-! ### C3 — read-time bounds checking -/
/-- A concrete plain-format archive: header `count=1, data_size=2`, one
entry `{crc=0, offset=0, size=3}`, 2 payload bytes, 1 trailing byte. -/
def c3bytes : List Nat :=
  [1, 0, 2, 0, 0, 0, 0, 0, 0, 0, 0, 0, 0, 0, 3, 0, 0, 0, 7, 7, 9]

def c3entry : MixEntry := ⟨0, 0, 3⟩

def c3mf : MixFileM :=
  ⟨c3bytes, ⟨1, 2, false, false, false⟩, [c3entry], 18, none⟩

def c3mfCached : MixFileM :=
  { c3mf with cachedData := some [7, 7] }

/-! ## Minimal BigUint and RSA key recovery (`rsa.rs`)

`BigUint` is a little-endian list of 32-bit limbs.  `u64` arithmetic in
`mul` is modelled with explicit `% 2 ^ 64` (release-mode wrap-around
semantics; debug builds would panic at the same spots). -/
/-- Value of a limb list (little-endian, base `2 ^ 32`). -/
def toNatBig (l : List Nat) : Nat :=
  l.foldr (fun d acc => d + 2 ^ 32 * acc) 0

/-- Well-formedness: non-empty, 32-bit limbs, no trailing zero limb except
for `[0]` itself (the source keeps digits in this shape via its trim loops). -/
def WfBig (l : List Nat) : Prop :=
  l ≠ [] ∧ (∀ d ∈ l, d < 2 ^ 32) ∧ (1 < l.length → l.getLast?.getD 0 ≠ 0)

instance (l : List Nat) : Decidable (WfBig l) := by
  unfold WfBig
  infer_instance

/-- The trim loop `while digits.len() > 1 && *digits.last() == 0 { pop }`. -/
def trimDigits (l : List Nat) : List Nat :=
  match l.reverse.dropWhile (fun d => d = 0) with
  | [] => if l.isEmpty then [] else [0]
  | r => r.reverse

/-- `BigUint::from_u32` (both the zero and nonzero arm produce `[value]`). -/
def fromU32 (v : Nat) : List Nat := [v]

/-- Limbs from a reversed (least-significant-first) byte list, 4 bytes per
limb as in `from_be_bytes`'s right-to-left grouping. -/
def beChunks : List Nat → List Nat
  | [] => []
  | [b0] => [b0]
  | [b0, b1] => [b0 + 256 * b1]
  | [b0, b1, b2] => [b0 + 256 * b1 + 65536 * b2]
  | b0 :: b1 :: b2 :: b3 :: rest =>
    (b0 + 256 * b1 + 65536 * b2 + 16777216 * b3) :: beChunks rest

/-- `BigUint::from_be_bytes`. -/
def fromBeBytes (bytes : List Nat) : List Nat :=
  if bytes.isEmpty then [0] else trimDigits (beChunks bytes.reverse)

/-- `BigUint::is_zero`: `digits.len() == 1 && digits[0] == 0`. -/
def isZeroBig (l : List Nat) : Bool :=
  l.length == 1 && l.headD 1 == 0

/-- `BigUint::is_odd`: `digits[0] & 1 == 1`. -/
def isOddBig (l : List Nat) : Bool :=
  l.headD 0 % 2 == 1

/-- `BigUint::shr1` over the most-significant-first digit list:
`new_carry = d & 1; d = (d >> 1) | (carry << 31)`. -/
def shr1Hi : List Nat → Nat → List Nat
  | [], _ => []
  | d :: rest, carry => (d / 2 + carry * 2 ^ 31) :: shr1Hi rest (d % 2)

def shr1Big (l : List Nat) : List Nat :=
  trimDigits ((shr1Hi l.reverse 0).reverse)

/-- `BigUint::shl1`: `shifted = (d as u64) << 1 | carry` per limb, final
carry into a fresh top slot, then trim. -/
def shl1Lo : List Nat → Nat → List Nat
  | [], carry => [carry]
  | d :: rest, carry => (2 * d + carry) % 2 ^ 32 :: shl1Lo rest ((2 * d + carry) / 2 ^ 32)

def shl1Big (l : List Nat) : List Nat :=
  trimDigits (shl1Lo l 0)

/-- The product-accumulation loops of `BigUint::mul`:
`result[i + j] += (a[i] as u64) * (b[j] as u64)` on `u64` slots — the
addition wraps at `2 ^ 64` (no intermediate carry propagation, exactly as
the source: release builds wrap, debug builds panic). -/
def mulSlots (a b : List Nat) : List Nat :=
  (List.range a.length).foldl
    (fun acc i =>
      (List.range b.length).foldl
        (fun acc2 j =>
          acc2.set (i + j) ((acc2.getD (i + j) 0 + a.getD i 0 * b.getD j 0) % 2 ^ 64))
        acc)
    (List.replicate (a.length + b.length) 0)

/-- The carry-propagation pass of `BigUint::mul`:
`*digit += carry; carry = *digit >> 32; *digit &= 0xFFFFFFFF`
(the carry out of the last slot is dropped, as in the source). -/
def mulCarry : List Nat → Nat → List Nat
  | [], _ => []
  | d :: rest, carry =>
    (d + carry) % 2 ^ 64 % 2 ^ 32 :: mulCarry rest ((d + carry) % 2 ^ 64 / 2 ^ 32)

def mulBig (a b : List Nat) : List Nat :=
  trimDigits (mulCarry (mulSlots a b) 0)

/-- Most-significant-first lexicographic comparison: the zipped reverse
iteration of `BigUint::cmp`. -/
def lexRev : List Nat → List Nat → Ordering
  | x :: xs, y :: ys => if x ≠ y then compare x y else lexRev xs ys
  | _, _ => .eq

/-- `BigUint::cmp`: digit-count first, then lexicographic from the top. -/
def cmpBig (a b : List Nat) : Ordering :=
  if a.length ≠ b.length then compare a.length b.length
  else lexRev a.reverse b.reverse

/-- The subtraction loop of `BigUint::sub` (borrow in `{0,1}`; the `i64`
branch `diff < 0` is `a < b + borrow`). -/
def subLimbs : List Nat → List Nat → Nat → List Nat
  | [], _, _ => []
  | a :: arest, bs, borrow =>
    let bv := bs.headD 0 + borrow
    if a < bv then (a + 2 ^ 32 - bv) :: subLimbs arest bs.tail 1
    else (a - bv) :: subLimbs arest bs.tail 0

def subBig (a b : List Nat) : List Nat :=
  trimDigits (subLimbs a b 0)

/-- Bit count of a 32-bit value: `32 - leading_zeros` realised as a bounded
search (executable, no `Nat.log2`). -/
def bitsAux : Nat → Nat → Nat
  | 0, _ => 0
  | k + 1, d => if 2 ^ k ≤ d then k + 1 else bitsAux k d

def bits32 (d : Nat) : Nat := bitsAux 32 d

/-- `BigUint::bit_length`. -/
def bitLengthBig (l : List Nat) : Nat :=
  if isZeroBig l then 0
  else (l.length - 1) * 32 + bits32 (l.getLast?.getD 0)

/-- The alignment loop of `BigUint::modulo`: `shift` left-shifts of the
modulus. -/
def moduloShiftLoop : Nat → List Nat → List Nat
  | 0, m => m
  | k + 1, m => moduloShiftLoop k (shl1Big m)

/-- The subtraction loop of `BigUint::modulo`:
`for _ in 0..=shift { if result >= shifted_mod { result -= shifted_mod }
shifted_mod >>= 1 }`. -/
def moduloSubLoop : Nat → List Nat → List Nat → List Nat
  | 0, result, _ => result
  | k + 1, result, smod =>
    moduloSubLoop k (if cmpBig result smod ≠ .lt then subBig result smod else result)
      (shr1Big smod)

/-- `BigUint::modulo`. -/
def moduloBig (self m : List Nat) : List Nat :=
  if cmpBig self m = .lt then self
  else if bitLengthBig self < bitLengthBig m then self
  else
    moduloSubLoop (bitLengthBig self - bitLengthBig m + 1) self
      (moduloShiftLoop (bitLengthBig self - bitLengthBig m) m)

/-- The square-and-multiply loop of `mod_pow`.  Fuel-exhaustion returns
`none`; `32 * exp.length` fuel provably suffices. -/
def modPowLoop (m : List Nat) : Nat → List Nat → List Nat → List Nat → Option (List Nat)
  | 0, result, _, exp => if isZeroBig exp then some result else none
  | fuel + 1, result, base, exp =>
    if isZeroBig exp then some result
    else
      modPowLoop m fuel
        (if isOddBig exp then moduloBig (mulBig result base) m else result)
        (moduloBig (mulBig base base) m) (shr1Big exp)

/-- `mod_pow(base, exp, modulus)`; `none` models the zero-modulus `panic!`. -/
def mod_pow (base exp m : List Nat) : Option (List Nat) :=
  if isZeroBig m then none
  else modPowLoop m (32 * exp.length) (fromU32 1) (moduloBig base m) exp

/-- Big-endian bytes of a limb (`u32::to_be_bytes`). -/
def limbBE (d : Nat) : List Nat :=
  [d / 2 ^ 24 % 256, d / 2 ^ 16 % 256, d / 2 ^ 8 % 256, d % 256]

/-- `while bytes.len() > 1 && bytes[0] == 0 { bytes.remove(0) }`. -/
def dropLeadingZeros : List Nat → List Nat
  | [] => []
  | [b] => [b]
  | b :: rest => if b = 0 then dropLeadingZeros rest else b :: rest

/-- `BigUint::to_be_bytes_padded`. -/
def to_be_bytes_padded (l : List Nat) (minLen : Nat) : List Nat :=
  List.replicate (minLen - (dropLeadingZeros ((l.reverse.map limbBE).flatten)).length) 0 ++
    dropLeadingZeros ((l.reverse.map limbBE).flatten)

/-- The bytes of `WESTWOOD_PUBLIC_KEY.modulus` exactly as written in the
source (42 bytes — the adjacent comment and the repository's own test say
40). -/
def WESTWOOD_MODULUS : List Nat :=
  [0x02, 0x28, 0x51, 0xBC, 0xDA, 0x08, 0x6D, 0x39, 0xFC, 0xE4, 0x56, 0x51, 0x60, 0xD6,
   0x51, 0x71, 0x3F, 0xA2, 0xE8, 0xAA, 0x54, 0xFA, 0x66, 0x82, 0xB0, 0x4A, 0xAB, 0xDD,
   0x0E, 0x6A, 0xF8, 0xB0, 0xC1, 0xE6, 0xD1, 0xFB, 0x4F, 0x3D, 0xAA, 0x43, 0x7F, 0x15]

/-- The modulus as a `BigUint`. -/
def westwoodN : List Nat := fromBeBytes WESTWOOD_MODULUS

/-- `RsaPublicKey::plain_block_size() = modulus.len() - 1`. -/
def plain_block_size : Nat := WESTWOOD_MODULUS.length - 1

/-- `RsaPublicKey::decrypt_block` for the Westwood key
(exponent 65537). -/
def decrypt_block (ciphertext : List Nat) : Option (List Nat) :=
  (mod_pow (fromBeBytes ciphertext) (fromU32 65537) westwoodN).map
    (fun m => to_be_bytes_padded m plain_block_size)

/-- `decrypt_mix_key`: two 40-byte blocks (`RSA_CRYPT_BLOCK_SIZE = 40`),
each decrypted if fully present, concatenated and truncated to 56 bytes. -/
def decrypt_mix_key (blob : List Nat) : Option (List Nat) :=
  match (if 40 ≤ blob.length then decrypt_block (blob.take 40) else some []),
        (if 80 ≤ blob.length then decrypt_block ((blob.drop 40).take 40) else some []) with
  | some a, some b => some ((a ++ b).take 56)
  | _, _ => none

/-! ### C2 — `decrypt_mix_key` block layout -/
/-- An 80-byte key blob: first ciphertext block encodes the value 1, second
block zero. -/
def c2blob : List Nat := (List.replicate 39 0 ++ [1]) ++ List.replicate 40 0

/-- Modelled from the spec: the key that C2's description would produce at
`c2blob` — each plaintext re-encoded big-endian padded to exactly 39 bytes
(`1^65537 mod n = 1` and `0^65537 mod n = 0`), concatenated (78 bytes) and
truncated to 56. -/
def c2claimKey : List Nat := ((List.replicate 38 0 ++ [1]) ++ List.replicate 39 0).take 56

/-- Value of a most-significant-first limb list. -/
def hiVal : List Nat → Nat
  | [] => 0
  | d :: rest => d * 2 ^ (32 * rest.length) + hiVal rest

/-! ### Theorems -/

/-! ## Basic properties of the decompression loop -/
theorem litCopy_fst_length_le :
    ∀ c src out destLen, ((litCopy c src out destLen).1).length ≤ src.length := by
  intro c
  induction c with
  | zero => intro src out destLen; simp [litCopy]
  | succ c ih =>
    intro src out destLen
    match src with
    | [] => simp [litCopy]
    | b :: rest =>
      simp only [litCopy]
      split
      · simp
      · exact le_trans (ih rest (out ++ [b]) destLen) (by simp)

theorem litCopy_snd_length_le :
    ∀ c src out destLen, out.length ≤ destLen →
      ((litCopy c src out destLen).2).length ≤ destLen := by
  intro c
  induction c with
  | zero => intro src out destLen h; simpa [litCopy]
  | succ c ih =>
    intro src out destLen h
    match src with
    | [] => simpa [litCopy]
    | b :: rest =>
      simp only [litCopy]
      split
      · simpa
      · exact ih rest (out ++ [b]) destLen (by simp; omega)

theorem backrefCopy_length_le :
    ∀ c out refIdx destLen, out.length ≤ destLen →
      (backrefCopy c out refIdx destLen).length ≤ destLen := by
  intro c
  induction c with
  | zero => intro out refIdx destLen h; simpa [backrefCopy]
  | succ c ih =>
    intro out refIdx destLen h
    simp only [backrefCopy]
    split
    · exact h
    · exact ih _ _ destLen (by simp; omega)

theorem lcwStep_cont_src_lt {src out : List Nat} {destLen : Nat} {s2 o2 : List Nat}
    (h : lcwStep src out destLen = .cont s2 o2) : s2.length < src.length := by
  match src with
  | [] => simp [lcwStep] at h
  | cmd :: rest =>
    simp only [lcwStep] at h
    split at h
    · cases h
    · split at h
      · split at h
        · split at h
          · cases h
          · rename_i low rest2
            cases h
            have := litCopy_fst_length_le ((cmd % 64) * 256 + low + 1) rest2 out destLen
            simp only [List.length_cons]
            omega
        · cases h
          have := litCopy_fst_length_le (cmd % 64 + 1) rest out destLen
          simp only [List.length_cons]
          omega
      · split at h
        · cases h
        · rename_i low rest2
          split at h
          · cases h
          · cases h
            simp only [List.length_cons]
            omega

theorem lcwStep_cont_out_le {src out : List Nat} {destLen : Nat} {s2 o2 : List Nat}
    (hout : out.length ≤ destLen)
    (h : lcwStep src out destLen = .cont s2 o2) : o2.length ≤ destLen := by
  match src with
  | [] => simp [lcwStep] at h
  | cmd :: rest =>
    simp only [lcwStep] at h
    split at h
    · cases h
    · split at h
      · split at h
        · split at h
          · cases h
          · cases h
            exact litCopy_snd_length_le _ _ _ _ hout
        · cases h
          exact litCopy_snd_length_le _ _ _ _ hout
      · split at h
        · cases h
        · split at h
          · cases h
          · cases h
            exact backrefCopy_length_le _ _ _ _ hout

theorem lcwStep_done_eq {src out : List Nat} {destLen : Nat} {o : List Nat}
    (h : lcwStep src out destLen = .done o) : o = out := by
  match src with
  | [] => simp only [lcwStep] at h; cases h; rfl
  | cmd :: rest =>
    simp only [lcwStep] at h
    split at h
    · cases h; rfl
    · split at h
      · split at h
        · split at h
          · cases h
          · cases h
        · cases h
      · split at h
        · cases h
        · split at h
          · cases h
          · cases h

theorem lcwStep_fail_eq {src out : List Nat} {destLen : Nat} {e : LcwError}
    (h : lcwStep src out destLen = .fail e) : e = .invalidData := by
  match src with
  | [] => simp [lcwStep] at h
  | cmd :: rest =>
    simp only [lcwStep] at h
    split at h
    · cases h
    · split at h
      · split at h
        · split at h
          · cases h; rfl
          · cases h
        · cases h
      · split at h
        · cases h; rfl
        · split at h
          · cases h; rfl
          · cases h

theorem lcwRun_no_bufferTooSmall :
    ∀ fuel src out destLen, out.length ≤ destLen →
      lcwRun fuel src out destLen ≠ .error .bufferTooSmall ∧
      ∀ res, lcwRun fuel src out destLen = .ok res → res.length ≤ destLen := by
  intro fuel
  induction fuel with
  | zero =>
    intro src out destLen hout
    refine ⟨by simp [lcwRun], ?_⟩
    intro res h
    simp only [lcwRun] at h
    cases h
    exact hout
  | succ fuel ih =>
    intro src out destLen hout
    simp only [lcwRun]
    rcases hstep : lcwStep src out destLen with ⟨s2, o2⟩ | o | e
    · exact ih s2 o2 destLen (lcwStep_cont_out_le hout hstep)
    · refine ⟨by simp, ?_⟩
      intro res h
      cases h
      have := lcwStep_done_eq hstep
      subst this
      exact hout
    · have := lcwStep_fail_eq hstep
      subst this
      exact ⟨by simp, by intro res h; cases h⟩

theorem testBit7_of_lt {cmd : Nat} (h : cmd < 128) : cmd.testBit 7 = false := by
  simp only [Nat.testBit_to_div_mod, decide_eq_false_iff_not]
  omega

theorem testBit7_add {d : Nat} (h : d < 128) : (128 + d).testBit 7 = true := by
  simp only [Nat.testBit_to_div_mod, decide_eq_true_eq]
  omega

theorem testBit6_add {d : Nat} (h : d < 64) : (128 + d).testBit 6 = false := by
  simp only [Nat.testBit_to_div_mod, decide_eq_false_iff_not]
  omega

/-- **C5 (amended)** — `lcw_decompress` never reports a too-small output
buffer: it never returns `BufferTooSmall`, and on success the number of
bytes written never exceeds the destination capacity (output beyond the
buffer is silently dropped). -/
theorem lcw_decompress_never_bufferTooSmall (source : List Nat) (destLen : Nat) :
    lcw_decompress source destLen ≠ .error .bufferTooSmall ∧
    ∀ res, lcw_decompress source destLen = .ok res → res.length ≤ destLen := by
  exact lcwRun_no_bufferTooSmall (source.length + 1) source [] destLen (by simp)

/-- Witness for `lcw_decompress_never_bufferTooSmall` at a concrete input. -/
theorem lcw_decompress_never_bufferTooSmall_witness :
    lcw_decompress [0x80, 65, 0x70, 0x01, 0x00] 5 ≠ .error .bufferTooSmall ∧
    (5 : Nat) ≤ 5 := by
  exact ⟨(lcw_decompress_never_bufferTooSmall [0x80, 65, 0x70, 0x01, 0x00] 5).1,
    le_trans (le_of_eq (by decide))
      ((lcw_decompress_never_bufferTooSmall [0x80, 65, 0x70, 0x01, 0x00] 5).2
        [65, 65, 65, 65, 65] (by decide))⟩

/-- **C5 (counterexample)** — the input `[0x80, 'A', 0x70, 0x01, 0x00]`
decodes to eleven bytes given enough room, but with a 5-byte destination
buffer `lcw_decompress` returns `Ok` with the output truncated to 5 bytes
instead of the buffer-too-small error the claim requires. -/
theorem lcw_decompress_truncates_counterexample :
    lcw_decompress [0x80, 65, 0x70, 0x01, 0x00] 11 = .ok (List.replicate 11 65) ∧
    lcw_decompress [0x80, 65, 0x70, 0x01, 0x00] 5 = .ok (List.replicate 5 65) ∧
    lcw_decompress [0x80, 65, 0x70, 0x01, 0x00] 5 ≠ .error .bufferTooSmall := by
  refine ⟨by decide, by decide, by decide⟩

/-- **C7** — whenever the decompression loop encounters a back-reference
command (`0x01`–`0x7F`) whose decoded offset is zero or exceeds the number
of output bytes produced so far, it returns `InvalidData`. -/
theorem lcw_backref_bad_offset_invalidData
    (fuel : Nat) (out : List Nat) (destLen cmd lo : Nat) (rest : List Nat)
    (hfuel : 0 < fuel) (hpos : 0 < cmd) (hlt : cmd < 128)
    (hoff : cmd % 16 * 256 + lo = 0 ∨ out.length < cmd % 16 * 256 + lo) :
    lcwRun fuel (cmd :: lo :: rest) out destLen = .error .invalidData := by
  match fuel, hfuel with
  | fuel + 1, _ =>
    have hstep : lcwStep (cmd :: lo :: rest) out destLen = .fail .invalidData := by
      simp only [lcwStep, testBit7_of_lt hlt]
      simp only [if_neg (by omega : ¬cmd = 0), Bool.false_eq_true, if_false]
      simp [hoff]
      omega
    simp [lcwRun, hstep]

/-- Witness for `lcw_backref_bad_offset_invalidData`: one literal byte
followed by a back-reference with offset 16 (> 1 byte produced). -/
theorem lcw_backref_bad_offset_invalidData_witness :
    lcwRun 4 (0x10 :: 0x10 :: [0x00]) [65] 100 = .error .invalidData :=
  lcw_backref_bad_offset_invalidData 4 [65] 100 0x10 0x10 [0x00]
    (by decide) (by decide) (by decide) (by decide)

/-! ## Properties of `find_match` and the copy loops -/

theorem matchLen_le (data : List Nat) :
    ∀ fuel refPos pos, matchLen data refPos pos fuel ≤ fuel := by
  intro fuel
  induction fuel with
  | zero => intro refPos pos; simp [matchLen]
  | succ fuel ih =>
    intro refPos pos
    simp only [matchLen]
    split
    · exact Nat.succ_le_succ (ih _ _)
    · omega

theorem matchLen_spec (data : List Nat) :
    ∀ fuel refPos pos i, i < matchLen data refPos pos fuel →
      data.getD (refPos + i) 0 = data.getD (pos + i) 0 := by
  intro fuel
  induction fuel with
  | zero => intro refPos pos i h; simp [matchLen] at h
  | succ fuel ih =>
    intro refPos pos i h
    simp only [matchLen] at h
    split at h
    · rename_i heq
      match i with
      | 0 => simpa using heq
      | i + 1 =>
        have := ih (refPos + 1) (pos + 1) i (by omega)
        have e1 : refPos + (i + 1) = refPos + 1 + i := by omega
        have e2 : pos + (i + 1) = pos + 1 + i := by omega
        rw [e1, e2]
        exact this
    · omega

theorem findMatchLoop_post (data : List Nat) (pos maxMatch searchStart : Nat)
    (hss : searchStart ≤ pos) :
    ∀ c best, searchStart + c ≤ pos →
      (best = (0, 0) ∨ FMGood data pos maxMatch searchStart best) →
      (findMatchLoop data pos maxMatch searchStart c best = (0, 0) ∨
        FMGood data pos maxMatch searchStart
          (findMatchLoop data pos maxMatch searchStart c best)) := by
  intro c
  induction c with
  | zero => intro best _ hinv; simpa [findMatchLoop]
  | succ c ih =>
    intro best hc hinv
    simp only [findMatchLoop]
    split
    · rename_i hupd
      have hgood : FMGood data pos maxMatch searchStart
          (matchLen data (searchStart + c) pos maxMatch, pos - (searchStart + c)) := by
        refine ⟨hupd.1, matchLen_le data maxMatch _ _, by omega, by omega, by omega, ?_⟩
        intro i hi
        have : pos - (pos - (searchStart + c)) + i = searchStart + c + i := by omega
        rw [this]
        exact matchLen_spec data maxMatch (searchStart + c) pos i hi
      split
      · exact Or.inr hgood
      · exact ih _ (by omega) (Or.inr hgood)
    · exact ih _ (by omega) hinv

/-- Postcondition of `find_match` when it reports a usable match. -/
theorem find_match_post (data : List Nat) (pos : Nat)
    (h3 : 3 ≤ (find_match data pos).1) :
    1 ≤ (find_match data pos).2 ∧ (find_match data pos).2 ≤ pos ∧
    (find_match data pos).2 ≤ 4095 ∧ (find_match data pos).1 ≤ 10 ∧
    pos + (find_match data pos).1 ≤ data.length ∧
    ∀ i < (find_match data pos).1,
      data.getD (pos - (find_match data pos).2 + i) 0 = data.getD (pos + i) 0 := by
  by_cases hp : pos = 0
  · subst hp; simp [find_match] at h3
  · have hres := findMatchLoop_post data pos (min 10 (data.length - pos))
      (pos - min pos 4095) (by omega) (min pos 4095) (0, 0) (by omega) (by left; rfl)
    have hfm : find_match data pos =
        findMatchLoop data pos (min 10 (data.length - pos)) (pos - min pos 4095)
          (min pos 4095) (0, 0) := by
      simp [find_match, hp]
    rw [hfm] at h3 ⊢
    rcases hres with hz | hg
    · rw [hz] at h3; simp at h3
    · obtain ⟨g1, g2, g3, g4, g5, g6⟩ := hg
      refine ⟨g3, g5, by omega, by omega, ?_, g6⟩
      have hmm : (findMatchLoop data pos (min 10 (data.length - pos))
          (pos - min pos 4095) (min pos 4095) (0, 0)).1 ≤ data.length - pos := by omega
      omega

/-- `litCopy` with enough room and enough input copies exactly `c` bytes. -/
theorem litCopy_exact :
    ∀ c src out destLen, c ≤ src.length → out.length + c ≤ destLen →
      litCopy c src out destLen = (src.drop c, out ++ src.take c) := by
  intro c
  induction c with
  | zero => intro src out destLen _ _; simp [litCopy]
  | succ c ih =>
    intro src out destLen hsrc hcap
    match src with
    | [] => simp at hsrc
    | b :: rest =>
      simp only [litCopy]
      rw [if_neg (by simp at hcap ⊢; omega)]
      rw [ih rest (out ++ [b]) destLen (by simpa using hsrc) (by simp; omega)]
      simp [List.take_cons, List.drop_succ_cons]

theorem take_getD (s : List Nat) (n i : Nat) (h : i < n) :
    (s.take n).getD i 0 = s.getD i 0 := by
  by_cases hi : i < s.length
  · rw [List.getD_eq_getElem?_getD, List.getD_eq_getElem?_getD]
    rw [List.getElem?_take]
    simp [h]
  · rw [List.getD_eq_getElem?_getD, List.getD_eq_getElem?_getD]
    rw [List.getElem?_eq_none (by simp; omega), List.getElem?_eq_none (by omega)]

theorem take_push_getD (s : List Nat) (pos : Nat) (h : pos < s.length) :
    s.take pos ++ [s.getD pos 0] = s.take (pos + 1) := by
  rw [List.take_succ]
  congr 1
  rw [List.getD_eq_getElem?_getD]
  rw [List.getElem?_eq_getElem h]
  simp

/-- `backrefCopy` started from a prefix of `s` at a valid back-reference
extends the prefix, byte for byte (this also covers overlapping copies). -/
theorem backrefCopy_exact (s : List Nat) (destLen : Nat) (hdl : s.length ≤ destLen) :
    ∀ count pos off, 1 ≤ off → off ≤ pos → pos + count ≤ s.length →
      (∀ i < count, s.getD (pos - off + i) 0 = s.getD (pos + i) 0) →
      backrefCopy count (s.take pos) (pos - off) destLen = s.take (pos + count) := by
  intro count
  induction count with
  | zero => intro pos off _ _ _ _; simp [backrefCopy]
  | succ count ih =>
    intro pos off hoff1 hoffp hlen hmatch
    have hposlt : pos < s.length := by omega
    simp only [backrefCopy]
    rw [if_neg (by rw [List.length_take]; omega)]
    have hbyte : (s.take pos).getD (pos - off) 0 = s.getD pos 0 := by
      rw [take_getD s pos (pos - off) (by omega)]
      have := hmatch 0 (by omega)
      simpa using this
    rw [hbyte, take_push_getD s pos hposlt]
    have hshift : pos - off + 1 = pos + 1 - off := by omega
    rw [hshift]
    have := ih (pos + 1) off hoff1 (by omega) (by omega) ?_
    · rw [this]
      congr 1
      omega
    · intro i hi
      have e1 : pos + 1 - off + i = pos - off + (i + 1) := by omega
      have e2 : pos + 1 + i = pos + (i + 1) := by omega
      rw [e1, e2]
      exact hmatch (i + 1) (by omega)

/-- Postcondition of the literal-run scan. -/
theorem literalRunLoop_post (s : List Nat) (srcPos : Nat) :
    ∀ fuel lc, 1 ≤ lc → lc ≤ 63 → srcPos + lc ≤ s.length → 63 ≤ fuel + lc →
      1 ≤ literalRunLoop s srcPos fuel lc ∧
      lc ≤ literalRunLoop s srcPos fuel lc ∧
      literalRunLoop s srcPos fuel lc ≤ 63 ∧
      srcPos + literalRunLoop s srcPos fuel lc ≤ s.length ∧
      (srcPos + literalRunLoop s srcPos fuel lc = s.length ∨
        literalRunLoop s srcPos fuel lc = 63 ∨
        (3 ≤ (find_match s (srcPos + literalRunLoop s srcPos fuel lc)).1 ∧
          brFirstByte (find_match s (srcPos + literalRunLoop s srcPos fuel lc)).1
            (find_match s (srcPos + literalRunLoop s srcPos fuel lc)).2 ≠ 0)) := by
  intro fuel
  induction fuel with
  | zero =>
    intro lc h1 h63 hlen hf
    have hlc : lc = 63 := by omega
    subst hlc
    refine ⟨by simp [literalRunLoop], by simp [literalRunLoop],
      by simp [literalRunLoop], by simpa [literalRunLoop], ?_⟩
    right; left
    simp [literalRunLoop]
  | succ fuel ih =>
    intro lc h1 h63 hlen hf
    simp only [literalRunLoop]
    split
    · rename_i hcond
      split
      · rename_i hbreak
        exact ⟨by omega, le_refl _, by omega, hlen, Or.inr (Or.inr hbreak)⟩
      · rename_i hnobreak
        have := ih (lc + 1) (by omega) (by omega) (by omega) (by omega)
        exact ⟨this.1, by omega, this.2.2.1, this.2.2.2.1, this.2.2.2.2⟩
    · rename_i hcond
      refine ⟨by omega, le_refl _, by omega, hlen, ?_⟩
      by_cases hend : srcPos + lc = s.length
      · exact Or.inl hend
      · have : lc = 63 := by omega
        exact Or.inr (Or.inl this)

/-! ## Decoding the tokens emitted by `lcw_compress` -/

/-- Decoding a short-literal token emitted by the compressor extends the
output by exactly the literal bytes. -/
theorem lcwStep_literal_tok (s : List Nat) (srcPos lc : Nat) (codeRest : List Nat)
    (destLen : Nat) (h1 : 1 ≤ lc) (h63 : lc ≤ 63) (hlen : srcPos + lc ≤ s.length)
    (hdl : s.length ≤ destLen) :
    lcwStep ((128 + (lc - 1)) :: ((s.drop srcPos).take lc ++ codeRest))
        (s.take srcPos) destLen
      = .cont codeRest (s.take (srcPos + lc)) := by
  have hlits : ((s.drop srcPos).take lc).length = lc := by
    rw [List.length_take, List.length_drop]
    omega
  have hcm : (128 + (lc - 1)) % 64 = lc - 1 := by omega
  simp only [lcwStep]
  rw [if_neg (by omega : ¬128 + (lc - 1) = 0)]
  rw [testBit7_add (by omega : lc - 1 < 128), testBit6_add (by omega : lc - 1 < 64)]
  simp only [if_true, Bool.false_eq_true, if_false, hcm]
  have hcount : lc - 1 + 1 = lc := by omega
  rw [hcount]
  rw [litCopy_exact lc ((s.drop srcPos).take lc ++ codeRest) (s.take srcPos) destLen
      (by rw [List.length_append, hlits]; omega)
      (by rw [List.length_take]; omega)]
  have hdrop : ((s.drop srcPos).take lc ++ codeRest).drop lc = codeRest :=
    List.drop_left' hlits
  have htake : ((s.drop srcPos).take lc ++ codeRest).take lc = (s.drop srcPos).take lc :=
    List.take_left' hlits
  rw [hdrop, htake, ← List.take_add]

/-- Decoding a back-reference token emitted by the compressor extends the
output prefix by the matched bytes. -/
theorem lcwStep_backref_tok (s : List Nat) (srcPos : Nat) (codeRest : List Nat)
    (destLen : Nat) (hsp : srcPos < s.length)
    (hm : 3 ≤ (find_match s srcPos).1)
    (hfb : brFirstByte (find_match s srcPos).1 (find_match s srcPos).2 ≠ 0)
    (hdl : s.length ≤ destLen) :
    lcwStep (brFirstByte (find_match s srcPos).1 (find_match s srcPos).2 ::
        (find_match s srcPos).2 % 256 :: codeRest) (s.take srcPos) destLen
      = .cont codeRest (s.take (srcPos + (find_match s srcPos).1)) := by
  obtain ⟨ho1, hop, ho4, hl10, hplen, hmatch⟩ := find_match_post s srcPos hm
  have hfblt : brFirstByte (find_match s srcPos).1 (find_match s srcPos).2 < 128 := by
    unfold brFirstByte; omega
  have hcount : brFirstByte (find_match s srcPos).1 (find_match s srcPos).2 / 16 % 8 + 3
      = (find_match s srcPos).1 := by
    unfold brFirstByte; omega
  have hoffeq : brFirstByte (find_match s srcPos).1 (find_match s srcPos).2 % 16 * 256 +
      (find_match s srcPos).2 % 256 = (find_match s srcPos).2 := by
    unfold brFirstByte; omega
  have htklen : (s.take srcPos).length = srcPos := by
    rw [List.length_take]; omega
  simp only [lcwStep]
  rw [if_neg hfb, testBit7_of_lt hfblt]
  simp only [Bool.false_eq_true, if_false, hoffeq, htklen, hcount]
  rw [if_neg (by omega : ¬((find_match s srcPos).2 = 0 ∨
      srcPos < (find_match s srcPos).2))]
  rw [backrefCopy_exact s destLen hdl (find_match s srcPos).1 srcPos
    (find_match s srcPos).2 ho1 hop (by omega) hmatch]

theorem compChoice_backref_eq (s : List Nat) (srcPos : Nat)
    (h : 3 ≤ (find_match s srcPos).1 ∧
      brFirstByte (find_match s srcPos).1 (find_match s srcPos).2 ≠ 0) :
    compChoice s srcPos = .backref
      (brFirstByte (find_match s srcPos).1 (find_match s srcPos).2)
      ((find_match s srcPos).2 % 256) (find_match s srcPos).1 := by
  simp only [compChoice]
  rw [if_pos h]

theorem compChoice_literal_eq (s : List Nat) (srcPos : Nat)
    (h : ¬(3 ≤ (find_match s srcPos).1 ∧
      brFirstByte (find_match s srcPos).1 (find_match s srcPos).2 ≠ 0)) :
    compChoice s srcPos = .literal (literalRunLoop s srcPos 63 1) := by
  simp only [compChoice]
  rw [if_neg h]

/-- **Main round-trip invariant.**  From any position `srcPos` with `m` bytes
left, with enough budget in the output buffer, compression succeeds, emits at
most `m + ⌈m/63⌉ + 1` bytes, and the emitted code decompresses from the
prefix `s.take srcPos` back to exactly `s`. -/
theorem lcwCompressMain (s : List Nat) (destCap : Nat) :
    ∀ m srcPos out fuel,
      srcPos + m = s.length →
      out.length + m + (m + 62) / 63 + 1 ≤ destCap →
      m + 1 ≤ fuel →
      ∃ code, compRun s fuel srcPos out destCap = .ok (out ++ code) ∧
        code.length ≤ m + (m + 62) / 63 + 1 ∧
        ∀ fuel2 destLen, code.length ≤ fuel2 → s.length ≤ destLen →
          lcwRun fuel2 code (s.take srcPos) destLen = .ok s := by
  intro m
  induction m using Nat.strong_induction_on with
  | _ m ih =>
    intro srcPos out fuel hlen hbud hfuel
    match fuel, hfuel with
    | fuel + 1, hfuel =>
      by_cases hm0 : m = 0
      · subst hm0
        have hsp : srcPos = s.length := by omega
        refine ⟨[0], ?_, by simp, ?_⟩
        · simp only [compRun]
          rw [if_neg (by omega), if_neg (by omega)]
        · intro fuel2 destLen hf2 hdl
          match fuel2, hf2 with
          | fuel2 + 1, _ =>
            have hstep : lcwStep [0] (s.take srcPos) destLen = .done (s.take srcPos) := by
              simp [lcwStep]
            simp only [lcwRun, hstep]
            rw [hsp, List.take_length]
      · have hsplt : srcPos < s.length := by omega
        by_cases hbr : 3 ≤ (find_match s srcPos).1 ∧
            brFirstByte (find_match s srcPos).1 (find_match s srcPos).2 ≠ 0
        · -- emit a back-reference token
          obtain ⟨ho1, hop, ho4, hl10, hplen, hmatch⟩ := find_match_post s srcPos hbr.1
          have hml : (find_match s srcPos).1 ≤ m := by omega
          obtain ⟨code', hcomp', hclen', hdec'⟩ :=
            ih (m - (find_match s srcPos).1) (by omega)
              (srcPos + (find_match s srcPos).1)
              (out ++ [brFirstByte (find_match s srcPos).1 (find_match s srcPos).2,
                (find_match s srcPos).2 % 256]) fuel (by omega)
              (by simp only [List.length_append, List.length_cons, List.length_nil]; omega)
              (by omega)
          refine ⟨brFirstByte (find_match s srcPos).1 (find_match s srcPos).2 ::
            (find_match s srcPos).2 % 256 :: code', ?_, ?_, ?_⟩
          · simp only [compRun, if_pos hsplt, compChoice_backref_eq s srcPos hbr]
            rw [if_neg (by omega)]
            rw [hcomp']
            congr 1
            simp
          · simp only [List.length_cons]
            omega
          · intro fuel2 destLen hf2 hdl
            simp only [List.length_cons] at hf2
            match fuel2, (by omega : 1 ≤ fuel2) with
            | fuel2 + 1, _ =>
              have hstep := lcwStep_backref_tok s srcPos code' destLen hsplt hbr.1 hbr.2 hdl
              simp only [lcwRun, hstep]
              exact hdec' fuel2 destLen (by omega) hdl
        · -- emit a literal run
          have hpost := literalRunLoop_post s srcPos 63 1 (by omega) (by omega)
            (by omega) (by omega)
          set lc := literalRunLoop s srcPos 63 1 with hlcdef
          obtain ⟨hlc1, -, hlc63, hlclen, hdisj⟩ := hpost
          have hlcm : lc ≤ m := by omega
          have hlits : ((s.drop srcPos).take lc).length = lc := by
            rw [List.length_take, List.length_drop]; omega
          by_cases hA : srcPos + lc = s.length
          · -- final literal run: everything consumed, then the end marker
            obtain ⟨code', hcomp', hclen', hdec'⟩ :=
              ih 0 (by omega) (srcPos + lc)
                (out ++ (128 + (lc - 1)) :: ((s.drop srcPos).take lc)) fuel
                (by omega)
                (by simp only [List.length_append, List.length_cons, hlits]; omega)
                (by omega)
            refine ⟨(128 + (lc - 1)) :: ((s.drop srcPos).take lc ++ code'), ?_, ?_, ?_⟩
            · simp only [compRun, if_pos hsplt, compChoice_literal_eq s srcPos hbr,
                ← hlcdef]
              rw [if_neg (by omega)]
              rw [hcomp']
              congr 1
              simp
            · simp only [List.length_cons, List.length_append, hlits]
              omega
            · intro fuel2 destLen hf2 hdl
              simp only [List.length_cons, List.length_append, hlits] at hf2
              match fuel2, (by omega : 1 ≤ fuel2) with
              | fuel2 + 1, _ =>
                have hstep := lcwStep_literal_tok s srcPos lc code' destLen hlc1 hlc63
                  (by omega) hdl
                simp only [lcwRun, hstep]
                exact hdec' fuel2 destLen (by omega) hdl
          · have hAlt : srcPos + lc < s.length := by omega
            by_cases hB : lc = 63
            · -- full literal run, more input follows
              obtain ⟨code', hcomp', hclen', hdec'⟩ :=
                ih (m - lc) (by omega) (srcPos + lc)
                  (out ++ (128 + (lc - 1)) :: ((s.drop srcPos).take lc)) fuel
                  (by omega)
                  (by simp only [List.length_append, List.length_cons, hlits]; omega)
                  (by omega)
              refine ⟨(128 + (lc - 1)) :: ((s.drop srcPos).take lc ++ code'), ?_, ?_, ?_⟩
              · simp only [compRun, if_pos hsplt, compChoice_literal_eq s srcPos hbr,
                  ← hlcdef]
                rw [if_neg (by omega)]
                rw [hcomp']
                congr 1
                simp
              · simp only [List.length_cons, List.length_append, hlits]
                omega
              · intro fuel2 destLen hf2 hdl
                simp only [List.length_cons, List.length_append, hlits] at hf2
                match fuel2, (by omega : 1 ≤ fuel2) with
                | fuel2 + 1, _ =>
                  have hstep := lcwStep_literal_tok s srcPos lc code' destLen hlc1 hlc63
                    (by omega) hdl
                  simp only [lcwRun, hstep]
                  exact hdec' fuel2 destLen (by omega) hdl
            · -- the run stopped because a usable match begins at srcPos + lc
              have hbrk : 3 ≤ (find_match s (srcPos + lc)).1 ∧
                  brFirstByte (find_match s (srcPos + lc)).1
                    (find_match s (srcPos + lc)).2 ≠ 0 := by
                rcases hdisj with h | h | h
                · omega
                · omega
                · exact h
              obtain ⟨ho1', hop', ho4', hl10', hplen', hmatch'⟩ :=
                find_match_post s (srcPos + lc) hbrk.1
              have hml' : lc + (find_match s (srcPos + lc)).1 ≤ m := by omega
              match fuel, (by omega : 1 ≤ fuel) with
              | fuel + 1, _ =>
                obtain ⟨code'', hcomp'', hclen'', hdec''⟩ :=
                  ih (m - lc - (find_match s (srcPos + lc)).1) (by omega)
                    (srcPos + lc + (find_match s (srcPos + lc)).1)
                    ((out ++ (128 + (lc - 1)) :: ((s.drop srcPos).take lc)) ++
                      [brFirstByte (find_match s (srcPos + lc)).1
                        (find_match s (srcPos + lc)).2,
                       (find_match s (srcPos + lc)).2 % 256]) fuel
                    (by omega)
                    (by simp only [List.length_append, List.length_cons, hlits,
                          List.length_nil]; omega)
                    (by omega)
                refine ⟨(128 + (lc - 1)) :: ((s.drop srcPos).take lc ++
                  (brFirstByte (find_match s (srcPos + lc)).1
                    (find_match s (srcPos + lc)).2 ::
                  (find_match s (srcPos + lc)).2 % 256 :: code'')), ?_, ?_, ?_⟩
                · simp only [compRun, if_pos hsplt, compChoice_literal_eq s srcPos hbr,
                    ← hlcdef]
                  rw [if_neg (by omega)]
                  simp only [if_pos hAlt, compChoice_backref_eq s (srcPos + lc) hbrk]
                  rw [if_neg (by
                    simp only [List.length_append, List.length_cons, hlits]
                    omega)]
                  rw [hcomp'']
                  congr 1
                  simp
                · simp only [List.length_cons, List.length_append, hlits]
                  omega
                · intro fuel2 destLen hf2 hdl
                  simp only [List.length_cons, List.length_append, hlits] at hf2
                  match fuel2, (by omega : 2 ≤ fuel2) with
                  | fuel2 + 2, _ =>
                    have hstep1 := lcwStep_literal_tok s srcPos lc
                      (brFirstByte (find_match s (srcPos + lc)).1
                        (find_match s (srcPos + lc)).2 ::
                        (find_match s (srcPos + lc)).2 % 256 :: code'') destLen
                      hlc1 hlc63 (by omega) hdl
                    have hstep2 := lcwStep_backref_tok s (srcPos + lc) code'' destLen
                      hAlt hbrk.1 hbrk.2 hdl
                    simp only [lcwRun, hstep1, hstep2]
                    have : srcPos + lc + (find_match s (srcPos + lc)).1 =
                        srcPos + (lc + (find_match s (srcPos + lc)).1) := by omega
                    exact hdec'' fuel2 destLen (by omega) hdl

/-- **C1** — codec round-trip: for every byte string `s`, compressing with an
output buffer of at least `s.length + ⌈s.length/63⌉ + 1` bytes succeeds, and
decompressing the compressed stream into a buffer of at least `s.length`
bytes yields exactly `s` (so the decompressed length equals `s.length`). -/
theorem lcw_roundtrip (s : List Nat) (destCap destLen : Nat)
    (_hbytes : ∀ b ∈ s, b < 256)
    (hcap : s.length + (s.length + 62) / 63 + 1 ≤ destCap)
    (hdest : s.length ≤ destLen) :
    ∃ code, lcw_compress s destCap = .ok code ∧
      lcw_decompress code destLen = .ok s := by
  obtain ⟨code, hcomp, hclen, hdec⟩ :=
    lcwCompressMain s destCap s.length 0 [] (s.length + 1) (by omega)
      (by simpa using hcap) (by omega)
  refine ⟨code, ?_, ?_⟩
  · unfold lcw_compress
    rw [hcomp]
    simp
  · unfold lcw_decompress
    have h := hdec (code.length + 1) destLen (by omega) hdest
    simpa using h

/-- Witness for `lcw_roundtrip` at a concrete input. -/
theorem lcw_roundtrip_witness :
    (∀ b ∈ [10, 20, 30, 40], b < 256) ∧
    (∃ code, lcw_compress [10, 20, 30, 40] 6 = .ok code ∧
      lcw_decompress code 4 = .ok [10, 20, 30, 40]) :=
  ⟨by decide, lcw_roundtrip [10, 20, 30, 40] 6 4 (by decide) (by decide) (by decide)⟩

/-- **C4 (amended)** — the compressor's literal runs hold at most 63 data
bytes, so its worst case is one command byte per **63** literal bytes plus
the input plus the end marker: with an output buffer of at least
`n + ⌈n/63⌉ + 1` bytes `lcw_compress` never returns buffer-too-small, and it
writes at most that many bytes.  (`lcw_max_compressed_size(n) = 65·n/64 + 2`
is smaller than this bound for some `n`, see the counterexample.) -/
theorem lcw_compress_bound (s : List Nat) (destCap : Nat)
    (_hbytes : ∀ b ∈ s, b < 256)
    (hcap : s.length + (s.length + 62) / 63 + 1 ≤ destCap) :
    ∃ out, lcw_compress s destCap = .ok out ∧
      out.length ≤ s.length + (s.length + 62) / 63 + 1 := by
  obtain ⟨code, hcomp, hclen, -⟩ :=
    lcwCompressMain s destCap s.length 0 [] (s.length + 1) (by omega)
      (by simpa using hcap) (by omega)
  refine ⟨code, ?_, hclen⟩
  unfold lcw_compress
  rw [hcomp]
  simp

/-- Witness for `lcw_compress_bound` at a concrete input. -/
theorem lcw_compress_bound_witness :
    (∀ b ∈ [7, 7, 7, 7, 7], b < 256) ∧
    (∃ out, lcw_compress [7, 7, 7, 7, 7] 8 = .ok out ∧ out.length ≤ 7) :=
  ⟨by decide, lcw_compress_bound [7, 7, 7, 7, 7] 8 (by decide) (by decide)⟩

set_option maxRecDepth 100000 in
/-- **C4 (counterexample)** — `lcw_max_compressed_size` is too small: on the
127 pairwise-distinct bytes `0, 1, ..., 126` no 3-byte back-reference exists,
so the compressor emits two 63-byte literal runs and one 1-byte run
(2 + 126 + 1 + 1 = 130 bytes written) and then has no room for the end
marker: `lcw_compress` into the `lcw_max_compressed_size 127 = 130`-byte
buffer the claim guarantees fails with buffer-too-small. -/
theorem lcw_max_compressed_size_insufficient :
    (List.range 127).length = 127 ∧
    lcw_max_compressed_size 127 = 130 ∧
    lcw_compress (List.range 127) (lcw_max_compressed_size 127) =
      .error .bufferTooSmall := by
  refine ⟨by decide, by decide, by decide⟩

/-- The `wByteStep` invariant: the staging index stays below 4. -/
theorem wByteStep_index_lt (st : WCrcState) (b : Nat) (h : st.index < 4) :
    (wByteStep st b).index < 4 := by
  simp only [wByteStep]
  split
  · simp
  · simp
    omega

/-- The leading-bytes loop of `westwood_crc` never exits early: starting from
an index `< 4` it consumes the whole input (the index is reset to 0 inside
the loop body before the condition is re-checked). -/
theorem wPhase1_consumes_all :
    ∀ data st, st.index < 4 → wPhase1 data st = (WestwoodCrc.update st data, []) := by
  intro data
  induction data with
  | nil => intro st h; simp [wPhase1, WestwoodCrc.update]
  | cons b rest ih =>
    intro st h
    simp only [wPhase1, if_pos h]
    rw [ih (wByteStep st b) (wByteStep_index_lt st b h)]
    simp [WestwoodCrc.update]

/-- The one-shot hash coincides with a single streaming update + finalize. -/
theorem westwood_crc_eq_streaming (data : List Nat) :
    westwood_crc data = WestwoodCrc.finalize (WestwoodCrc.update WestwoodCrc.new data) := by
  unfold westwood_crc WestwoodCrc.finalize WestwoodCrc.new
  rw [wPhase1_consumes_all data ⟨0, 0, 0⟩ (by simp)]
  simp [wPhase2, wPhase3]

theorem WestwoodCrc.update_append (st : WCrcState) (a b : List Nat) :
    WestwoodCrc.update st (a ++ b) = WestwoodCrc.update (WestwoodCrc.update st a) b := by
  simp [WestwoodCrc.update, List.foldl_append]

/-- **C6** — streaming equivalence: feeding any chunk partition of a byte
string to the streaming `WestwoodCrc` (updates followed by `finalize`)
yields the same value as one `westwood_crc` call on the concatenation. -/
theorem westwood_crc_streaming_equiv (chunks : List (List Nat)) :
    WestwoodCrc.finalize (chunks.foldl WestwoodCrc.update WestwoodCrc.new) =
      westwood_crc chunks.flatten := by
  rw [westwood_crc_eq_streaming]
  congr 1
  induction chunks using List.reverseRecOn with
  | nil => simp [WestwoodCrc.update]
  | append_singleton init last ih =>
    rw [List.foldl_append]
    simp only [List.foldl_cons, List.foldl_nil]
    rw [ih, List.flatten_append, WestwoodCrc.update_append]
    simp [WestwoodCrc.update]

/-! ### C8 — hash case-insensitivity -/
theorem asciiUpper_asciiUpper (b : Nat) : asciiUpper (asciiUpper b) = asciiUpper b := by
  unfold asciiUpper
  split_ifs <;> omega

theorem asciiUpper_asciiLower (b : Nat) : asciiUpper (asciiLower b) = asciiUpper b := by
  unfold asciiUpper asciiLower
  split_ifs <;> omega

/-- **C8** — for every ASCII name, the filename hash of the name, of its
upper-cased form and of its lower-cased form agree; consequently
`MixFile::find` gives the same result for any ASCII case variant. -/
theorem westwood_crc_filename_case_insensitive (name : List Nat)
    (_hascii : ∀ b ∈ name, b < 128) :
    westwood_crc_filename name = westwood_crc_filename (name.map asciiUpper) ∧
    westwood_crc_filename name = westwood_crc_filename (name.map asciiLower) ∧
    ∀ entries, mixFind entries name = mixFind entries (name.map asciiUpper) ∧
      mixFind entries name = mixFind entries (name.map asciiLower) := by
  have hup : (name.map asciiUpper).map asciiUpper = name.map asciiUpper := by
    rw [List.map_map]
    congr 1
    funext b
    exact asciiUpper_asciiUpper b
  have hlo : (name.map asciiLower).map asciiUpper = name.map asciiUpper := by
    rw [List.map_map]
    congr 1
    funext b
    exact asciiUpper_asciiLower b
  have h1 : westwood_crc_filename name = westwood_crc_filename (name.map asciiUpper) := by
    unfold westwood_crc_filename
    rw [hup]
  have h2 : westwood_crc_filename name = westwood_crc_filename (name.map asciiLower) := by
    unfold westwood_crc_filename
    rw [hlo]
  refine ⟨h1, h2, ?_⟩
  intro entries
  unfold mixFind
  rw [← h1, ← h2]
  exact ⟨rfl, rfl⟩

/-- Witness for `westwood_crc_filename_case_insensitive` on `"Test"`. -/
theorem westwood_crc_filename_case_insensitive_witness :
    (∀ b ∈ [84, 101, 115, 116], b < 128) ∧
    westwood_crc_filename [84, 101, 115, 116] =
      westwood_crc_filename ([84, 101, 115, 116].map asciiUpper) :=
  ⟨by decide,
    (westwood_crc_filename_case_insensitive [84, 101, 115, 116] (by decide)).1⟩

/-- **C3 (counterexample)** — an archive whose only entry has
`offset + size = 3 > data_size = 2`: opened from a concrete file with one
trailing byte, the uncached `read_entry` *succeeds* (returning data that
reaches past the payload region), while the same read from cache errors; so
the `offset + size ≤ payload length` bound is not checked in the
file-backed mode. -/
theorem read_entry_bounds_counterexample :
    openPlain c3bytes = .ok c3mf ∧
    c3mf.header.dataSize = 2 ∧
    c3entry.offset + c3entry.size = 3 ∧
    read_entry c3mf c3entry = .ok [7, 7, 9] ∧
    mixCache c3mf = .ok c3mfCached ∧
    read_entry c3mfCached c3entry = .error .invalidFormat := by
  refine ⟨by decide, by decide, by decide, by decide, by decide, by decide⟩

/-- **C3 (amended)** — `read_entry` bounds behaviour per mode: a cached read
errors exactly when `offset + size` exceeds the cached payload length, while
a file-backed read errors exactly when `data_start + offset + size` runs
past the physical end of the backing file (for `size ≠ 0`); the header's
`data_size` is not consulted in the file-backed mode. -/
theorem read_entry_bounds_by_mode (mf : MixFileM) (e : MixEntry) :
    (∀ data, mf.cachedData = some data →
      (read_entry mf e = .error .invalidFormat ↔ data.length < e.offset + e.size)) ∧
    (mf.cachedData = none →
      (read_entry mf e = .error .ioError ↔
        (e.size ≠ 0 ∧ mf.fileBytes.length < mf.dataStart + e.offset + e.size))) := by
  constructor
  · intro data hc
    have hre : read_entry mf e =
        if data.length < e.offset + e.size then .error .invalidFormat
        else .ok ((data.drop e.offset).take e.size) := by
      unfold read_entry
      rw [hc]
    rw [hre]
    by_cases hcond : data.length < e.offset + e.size
    · simp [hcond]
    · simp [hcond]
  · intro hc
    have hre : read_entry mf e =
        if e.size ≠ 0 ∧ mf.fileBytes.length < mf.dataStart + e.offset + e.size then
          .error .ioError
        else .ok ((mf.fileBytes.drop (mf.dataStart + e.offset)).take e.size) := by
      unfold read_entry
      rw [hc]
    rw [hre]
    by_cases hcond : e.size ≠ 0 ∧ mf.fileBytes.length < mf.dataStart + e.offset + e.size
    · simp [hcond]
    · simp [hcond]

/-- Witness for `read_entry_bounds_by_mode` at the concrete archive. -/
theorem read_entry_bounds_by_mode_witness :
    read_entry c3mfCached c3entry = .error .invalidFormat ∧
    read_entry c3mf c3entry ≠ .error .ioError :=
  ⟨((read_entry_bounds_by_mode c3mfCached c3entry).1 [7, 7] (by rfl)).mpr (by decide),
    fun h =>
      absurd (((read_entry_bounds_by_mode c3mf c3entry).2 (by rfl)).mp h) (by decide)⟩

/-! ### C9 — `mod_pow` and the `mul` overflow bug -/
set_option maxRecDepth 200000 in
/-- **C9 (evidence)** — `mod_pow` reproduces the claim's concrete examples
(`3^5 mod 7 = 5`, `2^10 mod 1000 = 24`), but on multi-limb operands it is
wrong: `BigUint::mul` accumulates 64-bit limb products without intermediate
carry propagation, so the slot sums wrap at `2^64` (debug builds panic).
For `base = 2^64 - 1`, `exp = 2`, `modulus = 2^136` the result differs from
`(2^64 - 1)^2 mod 2^136`. -/
theorem mod_pow_mul_overflow_bug :
    (mod_pow (fromU32 3) (fromU32 5) (fromU32 7)).map toNatBig = some 5 ∧
    (mod_pow (fromU32 2) (fromU32 10) (fromU32 1000)).map toNatBig = some 24 ∧
    (mod_pow (fromBeBytes (List.replicate 8 255)) (fromU32 2)
        (fromBeBytes (1 :: List.replicate 17 0))).map toNatBig ≠
      some ((2 ^ 64 - 1) ^ 2 % 2 ^ 136) := by
  refine ⟨by decide, by decide, ?_⟩
  decide

set_option maxRecDepth 200000 in
/-- **C2 (evidence)** — the modulus constant actually holds 42 bytes (the
adjacent comment says 40 and the repository's own `test_westwood_key_sizes`
asserts 40, so that test fails), hence `plain_block_size() = 41`: each
decrypted block is padded to 41 bytes, not 39, and the 56-byte key has a
different layout than the claim describes. -/
theorem decrypt_mix_key_block_layout_bug :
    WESTWOOD_MODULUS.length = 42 ∧
    plain_block_size = 41 ∧
    decrypt_mix_key c2blob =
      some ((List.replicate 40 0 ++ [1]) ++ List.replicate 15 0) ∧
    decrypt_mix_key c2blob ≠ some c2claimKey := by
  refine ⟨by decide, by decide, by decide, by decide⟩

/-! ### Value and well-formedness lemmas for the BigUint operations -/

theorem toNatBig_nil : toNatBig [] = 0 := rfl

theorem toNatBig_cons (d : Nat) (l : List Nat) :
    toNatBig (d :: l) = d + 2 ^ 32 * toNatBig l := rfl

theorem toNatBig_append (a b : List Nat) :
    toNatBig (a ++ b) = toNatBig a + 2 ^ (32 * a.length) * toNatBig b := by
  induction a with
  | nil => simp [toNatBig]
  | cons x xs ih =>
    simp only [List.cons_append, toNatBig_cons, ih, List.length_cons]
    have : 32 * (xs.length + 1) = 32 * xs.length + 32 := by ring
    rw [this, pow_add]
    ring

theorem hiVal_append (a b : List Nat) :
    hiVal (a ++ b) = hiVal a * 2 ^ (32 * b.length) + hiVal b := by
  induction a with
  | nil => simp [hiVal]
  | cons x xs ih =>
    simp only [List.cons_append, hiVal, ih, List.length_append, List.append_eq]
    have h32 : 32 * (xs.length + b.length) = 32 * xs.length + 32 * b.length := by ring
    rw [h32, pow_add]
    ring

theorem toNatBig_eq_hiVal (l : List Nat) : toNatBig l = hiVal l.reverse := by
  induction l with
  | nil => rfl
  | cons x xs ih =>
    simp only [toNatBig_cons, List.reverse_cons, hiVal_append, ih]
    simp [hiVal]
    ring

theorem toNatBig_lt (l : List Nat) (h : ∀ d ∈ l, d < 2 ^ 32) :
    toNatBig l < 2 ^ (32 * l.length) := by
  induction l with
  | nil => simp [toNatBig]
  | cons x xs ih =>
    have hx : x < 2 ^ 32 := h x (by simp)
    have ht : toNatBig xs < 2 ^ (32 * xs.length) := ih fun d hd => h d (by simp [hd])
    simp only [toNatBig_cons, List.length_cons]
    have : 32 * (xs.length + 1) = 32 * xs.length + 32 := by ring
    rw [this, pow_add]
    calc x + 2 ^ 32 * toNatBig xs
        < 2 ^ 32 + 2 ^ 32 * toNatBig xs := by omega
      _ ≤ 2 ^ 32 * (1 + toNatBig xs) := by ring_nf; omega
      _ ≤ 2 ^ 32 * 2 ^ (32 * xs.length) := by
          exact Nat.mul_le_mul_left _ (by omega)
      _ = 2 ^ (32 * xs.length) * 2 ^ 32 := by ring

theorem toNatBig_ge_top (xs : List Nat) (t : Nat) (ht : t ≠ 0) :
    2 ^ (32 * xs.length) ≤ toNatBig (xs ++ [t]) := by
  rw [toNatBig_append]
  have : toNatBig [t] = t := by simp [toNatBig]
  rw [this]
  have h1 : 1 ≤ t := by omega
  calc 2 ^ (32 * xs.length) = 2 ^ (32 * xs.length) * 1 := by ring
    _ ≤ 2 ^ (32 * xs.length) * t := Nat.mul_le_mul_left _ h1
    _ ≤ toNatBig xs + 2 ^ (32 * xs.length) * t := by omega

/-- A well-formed limb list of more than one limb reaches its top limb's
weight. -/
theorem toNatBig_ge_of_wf (l : List Nat) (hw : WfBig l) (hlen : 1 < l.length) :
    2 ^ (32 * (l.length - 1)) ≤ toNatBig l := by
  obtain ⟨hne, hb, hnorm⟩ := hw
  have hlast := hnorm hlen
  have hdecomp := (List.dropLast_append_getLast hne).symm
  rw [List.getLast?_eq_getLast l hne] at hlast
  simp only [Option.getD_some] at hlast
  calc 2 ^ (32 * (l.length - 1)) = 2 ^ (32 * l.dropLast.length) := by
        rw [List.length_dropLast]
    _ ≤ toNatBig (l.dropLast ++ [l.getLast hne]) := toNatBig_ge_top _ _ hlast
    _ = toNatBig l := by rw [← hdecomp]

theorem length_le_of_toNat_lt (l : List Nat) (hw : WfBig l) (k : Nat) (hk : 0 < k)
    (h : toNatBig l < 2 ^ (32 * k)) : l.length ≤ k := by
  by_contra hgt
  push_neg at hgt
  have hlen : 1 < l.length := by omega
  have hge := toNatBig_ge_of_wf l hw hlen
  have : 2 ^ (32 * k) ≤ 2 ^ (32 * (l.length - 1)) :=
    Nat.pow_le_pow_right (by omega) (by omega)
  omega

theorem hiVal_dropWhile_zero (r : List Nat) :
    hiVal (r.dropWhile (fun d => d = 0)) = hiVal r := by
  induction r with
  | nil => rfl
  | cons x xs ih =>
    by_cases hx : x = 0
    · subst hx
      have hstep : List.dropWhile (fun d => decide (d = 0)) (0 :: xs) =
          List.dropWhile (fun d => decide (d = 0)) xs := by
        simp [List.dropWhile_cons]
      simp only [hstep]
      rw [ih]
      simp [hiVal]
    · simp [List.dropWhile_cons, hx, hiVal]

theorem trimDigits_eq_nil_case (l : List Nat)
    (h : l.reverse.dropWhile (fun d => d = 0) = []) :
    trimDigits l = if l.isEmpty then [] else [0] := by
  unfold trimDigits
  rw [h]

theorem trimDigits_eq_cons_case (l : List Nat) (r : Nat) (rs : List Nat)
    (h : l.reverse.dropWhile (fun d => d = 0) = r :: rs) :
    trimDigits l = (r :: rs).reverse := by
  unfold trimDigits
  rw [h]

theorem trimDigits_toNat (l : List Nat) : toNatBig (trimDigits l) = toNatBig l := by
  rcases hdw : l.reverse.dropWhile (fun d => d = 0) with - | ⟨r, rs⟩
  · rw [trimDigits_eq_nil_case l hdw]
    have h0 : hiVal l.reverse = 0 := by
      rw [← hiVal_dropWhile_zero l.reverse, hdw]
      rfl
    rcases l with - | ⟨x, xs⟩
    · simp
    · have hz : toNatBig (x :: xs) = 0 := by rw [toNatBig_eq_hiVal, h0]
      rw [hz]
      simp [toNatBig]
  · rw [trimDigits_eq_cons_case l r rs hdw]
    rw [toNatBig_eq_hiVal (r :: rs).reverse, List.reverse_reverse, ← hdw,
      hiVal_dropWhile_zero, ← toNatBig_eq_hiVal]

theorem mem_dropWhile_subset {p : Nat → Bool} {l : List Nat} {x : Nat}
    (h : x ∈ l.dropWhile p) : x ∈ l := by
  induction l with
  | nil => simp [List.dropWhile] at h
  | cons y ys ih =>
    rw [List.dropWhile_cons] at h
    split at h
    · exact List.mem_cons_of_mem y (ih h)
    · exact h

theorem head_dropWhile_ne {l : List Nat} {r : Nat} {rs : List Nat}
    (h : l.dropWhile (fun d => d = 0) = r :: rs) : r ≠ 0 := by
  induction l with
  | nil => simp [List.dropWhile] at h
  | cons y ys ih =>
    rw [List.dropWhile_cons] at h
    split at h
    · exact ih h
    · rename_i hy
      cases h
      simpa using hy

theorem trimDigits_wf (l : List Nat) (hne : l ≠ []) (hb : ∀ d ∈ l, d < 2 ^ 32) :
    WfBig (trimDigits l) := by
  rcases hdw : l.reverse.dropWhile (fun d => d = 0) with - | ⟨r, rs⟩
  · rw [trimDigits_eq_nil_case l hdw]
    rw [if_neg (by simpa [List.isEmpty_eq_true] using hne)]
    exact ⟨by simp, by simp, by simp⟩
  · rw [trimDigits_eq_cons_case l r rs hdw]
    refine ⟨by simp, ?_, ?_⟩
    · intro d hd
      rw [List.mem_reverse] at hd
      have : d ∈ l.reverse := mem_dropWhile_subset (hdw ▸ hd)
      exact hb d (List.mem_reverse.mp this)
    · intro hlen
      rw [List.getLast?_reverse]
      have := head_dropWhile_ne hdw
      simpa using this

theorem shl1Lo_toNat : ∀ (l : List Nat) (c : Nat),
    toNatBig (shl1Lo l c) = 2 * toNatBig l + c := by
  intro l
  induction l with
  | nil => intro c; simp [shl1Lo, toNatBig]
  | cons d rest ih =>
    intro c
    simp only [shl1Lo, toNatBig_cons, ih]
    omega

theorem shl1Lo_limbs : ∀ (l : List Nat) (c : Nat), (∀ d ∈ l, d < 2 ^ 32) → c ≤ 1 →
    ∀ x ∈ shl1Lo l c, x < 2 ^ 32 := by
  intro l
  induction l with
  | nil => intro c _ hc x hx; simp [shl1Lo] at hx; omega
  | cons d rest ih =>
    intro c hb hc x hx
    simp only [shl1Lo, List.mem_cons] at hx
    rcases hx with hx | hx
    · omega
    · have hd : d < 2 ^ 32 := hb d (by simp)
      exact ih ((2 * d + c) / 2 ^ 32) (fun y hy => hb y (by simp [hy])) (by omega) x hx

theorem shl1Lo_ne_nil (l : List Nat) (c : Nat) : shl1Lo l c ≠ [] := by
  cases l <;> simp [shl1Lo]

theorem shl1Big_toNat (l : List Nat) : toNatBig (shl1Big l) = 2 * toNatBig l := by
  unfold shl1Big
  rw [trimDigits_toNat, shl1Lo_toNat]
  omega

theorem shl1Big_wf (l : List Nat) (hb : ∀ d ∈ l, d < 2 ^ 32) : WfBig (shl1Big l) :=
  trimDigits_wf _ (shl1Lo_ne_nil l 0) (shl1Lo_limbs l 0 hb (by omega))

theorem hiVal_lt (l : List Nat) (h : ∀ d ∈ l, d < 2 ^ 32) :
    hiVal l < 2 ^ (32 * l.length) := by
  have hrev := toNatBig_eq_hiVal l.reverse
  rw [List.reverse_reverse] at hrev
  rw [← hrev]
  have := toNatBig_lt l.reverse (fun d hd => h d (List.mem_reverse.mp hd))
  simpa using this

theorem shr1Hi_length (l : List Nat) : ∀ c, (shr1Hi l c).length = l.length := by
  induction l with
  | nil => intro c; rfl
  | cons d rest ih => intro c; simp [shr1Hi, ih]

theorem shr1Hi_hiVal : ∀ (l : List Nat) (c : Nat), c ≤ 1 → (∀ d ∈ l, d < 2 ^ 32) →
    hiVal (shr1Hi l c) = (c * 2 ^ (32 * l.length) + hiVal l) / 2 := by
  intro l
  induction l with
  | nil =>
    intro c hc _
    simp [shr1Hi, hiVal]
    omega
  | cons d rest ih =>
    intro c hc hb
    have hrec := ih (d % 2) (by omega) (fun x hx => hb x (by simp [hx]))
    simp only [shr1Hi, hiVal, List.length_cons, List.length_nil, shr1Hi_length]
    rw [hrec]
    obtain ⟨e, f, hf, rfl⟩ : ∃ e f, f ≤ 1 ∧ d = 2 * e + f :=
      ⟨d / 2, d % 2, by omega, by omega⟩
    have he1 : (2 * e + f) / 2 = e := by omega
    have he2 : (2 * e + f) % 2 = f := by omega
    rw [he1, he2]
    have hpow : 2 ^ (32 * (rest.length + 1)) = 2 ^ 32 * 2 ^ (32 * rest.length) := by
      rw [show 32 * (rest.length + 1) = 32 + 32 * rest.length by ring, pow_add]
    rw [hpow]
    have key : ∀ x y : Nat, (2 * x + y) / 2 = x + y / 2 := fun x y => by omega
    have hnum : c * (2 ^ 32 * 2 ^ (32 * rest.length)) +
        ((2 * e + f) * 2 ^ (32 * rest.length) + hiVal rest)
        = 2 * (c * 2 ^ 31 * 2 ^ (32 * rest.length) + e * 2 ^ (32 * rest.length)) +
          (f * 2 ^ (32 * rest.length) + hiVal rest) := by
      ring
    rw [hnum, key]
    ring

theorem shr1Hi_limbs : ∀ (l : List Nat) (c : Nat), c ≤ 1 → (∀ d ∈ l, d < 2 ^ 32) →
    ∀ x ∈ shr1Hi l c, x < 2 ^ 32 := by
  intro l
  induction l with
  | nil => intro c _ _ x hx; simp [shr1Hi] at hx
  | cons d rest ih =>
    intro c hc hb x hx
    simp only [shr1Hi, List.mem_cons] at hx
    rcases hx with hx | hx
    · have hd : d < 2 ^ 32 := hb d (by simp)
      omega
    · exact ih (d % 2) (by omega) (fun y hy => hb y (by simp [hy])) x hx

theorem shr1Big_toNat (l : List Nat) (hb : ∀ d ∈ l, d < 2 ^ 32) :
    toNatBig (shr1Big l) = toNatBig l / 2 := by
  unfold shr1Big
  rw [trimDigits_toNat, toNatBig_eq_hiVal, List.reverse_reverse,
    shr1Hi_hiVal l.reverse 0 (by omega) (fun d hd => hb d (List.mem_reverse.mp hd))]
  rw [toNatBig_eq_hiVal l]
  omega

theorem shr1Big_wf (l : List Nat) (hne : l ≠ []) (hb : ∀ d ∈ l, d < 2 ^ 32) :
    WfBig (shr1Big l) := by
  apply trimDigits_wf
  · intro h
    apply hne
    have hlen := shr1Hi_length l.reverse 0
    have h2 : ((shr1Hi l.reverse 0).reverse).length = 0 := by rw [h]; rfl
    simp only [List.length_reverse] at h2
    rw [hlen] at h2
    simp only [List.length_reverse] at h2
    exact List.length_eq_zero.mp h2
  · intro d hd
    rw [List.mem_reverse] at hd
    exact shr1Hi_limbs l.reverse 0 (by omega)
      (fun x hx => hb x (List.mem_reverse.mp hx)) d hd

theorem subLimbs_toNat : ∀ (a b : List Nat) (borrow : Nat),
    (∀ d ∈ a, d < 2 ^ 32) → (∀ d ∈ b, d < 2 ^ 32) → borrow ≤ 1 →
    b.length ≤ a.length → toNatBig b + borrow ≤ toNatBig a →
    toNatBig (subLimbs a b borrow) = toNatBig a - toNatBig b - borrow := by
  intro a
  induction a with
  | nil =>
    intro b borrow _ _ _ hlen hle
    have hb0 : b = [] := List.length_eq_zero.mp (by simpa using hlen)
    subst hb0
    simp [subLimbs, toNatBig] at hle ⊢
  | cons x xs ih =>
    intro b borrow ha hbm hbor hlen hle
    have hx : x < 2 ^ 32 := ha x (by simp)
    rcases b with - | ⟨y, ys⟩
    · have hxs : ∀ d ∈ xs, d < 2 ^ 32 := fun d hd => ha d (by simp [hd])
      rw [toNatBig_nil] at hle
      rw [toNatBig_cons] at hle
      simp only [subLimbs, List.headD, List.tail]
      split
      · rename_i hlt
        have h1 : 1 ≤ toNatBig xs := by omega
        rw [toNatBig_cons,
          ih [] 1 hxs (by simp) (by omega) (by simp) (by rw [toNatBig_nil]; omega)]
        simp only [toNatBig_cons, toNatBig_nil]
        omega
      · rename_i hge
        rw [toNatBig_cons,
          ih [] 0 hxs (by simp) (by omega) (by simp) (by rw [toNatBig_nil]; omega)]
        simp only [toNatBig_cons, toNatBig_nil]
        omega
    · have hy : y < 2 ^ 32 := hbm y (by simp)
      have hxs : ∀ d ∈ xs, d < 2 ^ 32 := fun d hd => ha d (by simp [hd])
      have hys : ∀ d ∈ ys, d < 2 ^ 32 := fun d hd => hbm d (by simp [hd])
      simp only [toNatBig_cons] at hle
      have htx := toNatBig_lt xs hxs
      simp only [subLimbs, List.headD, List.tail]
      split
      · rename_i hlt
        rw [toNatBig_cons]
        rw [ih ys 1 hxs hys (by omega) (by simpa using hlen) (by omega)]
        simp only [toNatBig_cons]
        omega
      · rename_i hge
        rw [toNatBig_cons]
        rw [ih ys 0 hxs hys (by omega) (by simpa using hlen) (by omega)]
        simp only [toNatBig_cons]
        omega

theorem subLimbs_limbs : ∀ (a b : List Nat) (borrow : Nat),
    (∀ d ∈ a, d < 2 ^ 32) → borrow ≤ 1 →
    ∀ x ∈ subLimbs a b borrow, x < 2 ^ 32 := by
  intro a
  induction a with
  | nil => intro b borrow _ _ x hx; simp [subLimbs] at hx
  | cons z zs ih =>
    intro b borrow ha hbor x hx
    have hz : z < 2 ^ 32 := ha z (by simp)
    simp only [subLimbs] at hx
    split at hx <;> simp only [List.mem_cons] at hx <;> rcases hx with hx | hx
    · omega
    · exact ih b.tail 1 (fun d hd => ha d (by simp [hd])) (by omega) x hx
    · omega
    · exact ih b.tail 0 (fun d hd => ha d (by simp [hd])) (by omega) x hx

theorem subLimbs_length (a : List Nat) : ∀ b borrow, (subLimbs a b borrow).length = a.length := by
  induction a with
  | nil => intro b borrow; rfl
  | cons z zs ih =>
    intro b borrow
    simp only [subLimbs]
    split <;> simp [ih]

theorem subBig_toNat (a b : List Nat)
    (ha : ∀ d ∈ a, d < 2 ^ 32) (hb : ∀ d ∈ b, d < 2 ^ 32)
    (hlen : b.length ≤ a.length) (hle : toNatBig b ≤ toNatBig a) :
    toNatBig (subBig a b) = toNatBig a - toNatBig b := by
  unfold subBig
  rw [trimDigits_toNat, subLimbs_toNat a b 0 ha hb (by omega) hlen (by omega)]
  omega

theorem subBig_wf (a b : List Nat) (hne : a ≠ [])
    (ha : ∀ d ∈ a, d < 2 ^ 32) : WfBig (subBig a b) := by
  apply trimDigits_wf
  · intro h
    apply hne
    have := subLimbs_length a b 0
    rw [h] at this
    exact List.length_eq_zero.mp this.symm
  · exact subLimbs_limbs a b 0 ha (by omega)

theorem compare_shift (c m n : Nat) : compare (c + m) (c + n) = compare m n := by
  rcases Nat.lt_trichotomy m n with h | h | h
  · rw [Nat.compare_eq_lt.mpr h, Nat.compare_eq_lt.mpr (by omega)]
  · subst h
    rw [Nat.compare_eq_eq.mpr rfl, Nat.compare_eq_eq.mpr rfl]
  · rw [Nat.compare_eq_gt.mpr h, Nat.compare_eq_gt.mpr (by omega)]

theorem lexRev_eq_compare : ∀ (a b : List Nat), a.length = b.length →
    (∀ d ∈ a, d < 2 ^ 32) → (∀ d ∈ b, d < 2 ^ 32) →
    lexRev a b = compare (hiVal a) (hiVal b) := by
  intro a
  induction a with
  | nil =>
    intro b hlen _ _
    have : b = [] := List.length_eq_zero.mp hlen.symm
    subst this
    simp only [lexRev, hiVal]
    exact (Nat.compare_eq_eq.mpr rfl).symm
  | cons x xs ih =>
    intro b hlen ha hb
    rcases b with - | ⟨y, ys⟩
    · simp at hlen
    · have hlen2 : xs.length = ys.length := by simpa using hlen
      have hxs := fun d hd => ha d (List.mem_cons_of_mem x hd)
      have hys := fun d hd => hb d (List.mem_cons_of_mem y hd)
      have hvx := hiVal_lt xs hxs
      have hvy := hiVal_lt ys hys
      simp only [lexRev, hiVal, hlen2]
      by_cases hxy : x = y
      · subst hxy
        rw [if_neg (by simp), compare_shift, ih ys hlen2 hxs hys]
      · rw [if_pos (by simpa using hxy)]
        rcases Nat.lt_trichotomy x y with h | h | h
        · rw [Nat.compare_eq_lt.mpr h, Nat.compare_eq_lt.mpr]
          rw [hlen2] at hvx
          calc x * 2 ^ (32 * ys.length) + hiVal xs
              < x * 2 ^ (32 * ys.length) + 2 ^ (32 * ys.length) := by omega
            _ = (x + 1) * 2 ^ (32 * ys.length) := by ring
            _ ≤ y * 2 ^ (32 * ys.length) := Nat.mul_le_mul_right _ (by omega)
            _ ≤ y * 2 ^ (32 * ys.length) + hiVal ys := by omega
        · exact absurd h hxy
        · rw [Nat.compare_eq_gt.mpr h, Nat.compare_eq_gt.mpr]
          calc y * 2 ^ (32 * ys.length) + hiVal ys
              < y * 2 ^ (32 * ys.length) + 2 ^ (32 * ys.length) := by omega
            _ = (y + 1) * 2 ^ (32 * ys.length) := by ring
            _ ≤ x * 2 ^ (32 * ys.length) := Nat.mul_le_mul_right _ (by omega)
            _ ≤ x * 2 ^ (32 * ys.length) + hiVal xs := by omega

theorem cmpBig_eq_compare (a b : List Nat) (ha : WfBig a) (hb : WfBig b) :
    cmpBig a b = compare (toNatBig a) (toNatBig b) := by
  unfold cmpBig
  by_cases hlen : a.length = b.length
  · rw [if_neg (by omega)]
    rw [toNatBig_eq_hiVal a, toNatBig_eq_hiVal b]
    exact lexRev_eq_compare a.reverse b.reverse (by simp [hlen])
      (fun d hd => ha.2.1 d (List.mem_reverse.mp hd))
      (fun d hd => hb.2.1 d (List.mem_reverse.mp hd))
  · rw [if_pos hlen]
    have hane : 1 ≤ a.length := by
      rcases a with - | _
      · exact absurd rfl ha.1
      · simp
    have hbne : 1 ≤ b.length := by
      rcases b with - | _
      · exact absurd rfl hb.1
      · simp
    rcases Nat.lt_trichotomy a.length b.length with h | h | h
    · have hva := toNatBig_lt a ha.2.1
      have hvb := toNatBig_ge_of_wf b hb (by omega)
      have hpow : 2 ^ (32 * a.length) ≤ 2 ^ (32 * (b.length - 1)) :=
        Nat.pow_le_pow_right (by omega) (by omega)
      rw [Nat.compare_eq_lt.mpr h, Nat.compare_eq_lt.mpr (by omega)]
    · exact absurd h hlen
    · have hvb := toNatBig_lt b hb.2.1
      have hva := toNatBig_ge_of_wf a ha (by omega)
      have hpow : 2 ^ (32 * b.length) ≤ 2 ^ (32 * (a.length - 1)) :=
        Nat.pow_le_pow_right (by omega) (by omega)
      rw [Nat.compare_eq_gt.mpr h, Nat.compare_eq_gt.mpr (by omega)]

theorem isZeroBig_iff (l : List Nat) (hw : WfBig l) :
    (isZeroBig l = true) ↔ toNatBig l = 0 := by
  rcases l with - | ⟨d, rest⟩
  · exact absurd rfl hw.1
  · rcases rest with - | ⟨e, rest2⟩
    · simp [isZeroBig, toNatBig]
    · have hge := toNatBig_ge_of_wf (d :: e :: rest2) hw (by simp)
      have h1 : (1 : Nat) ≤ 2 ^ (32 * ((d :: e :: rest2).length - 1)) :=
        Nat.one_le_two_pow
      constructor
      · intro h
        simp [isZeroBig] at h
      · intro h
        rw [h] at hge
        exact absurd hge (by omega)

theorem bitsAux_bounds : ∀ (n d : Nat), 0 < d → d < 2 ^ n →
    2 ^ (bitsAux n d - 1) ≤ d ∧ d < 2 ^ bitsAux n d := by
  intro n
  induction n with
  | zero => intro d hd hlt; omega
  | succ n ih =>
    intro d hd hlt
    simp only [bitsAux]
    split
    · rename_i hge
      exact ⟨by simpa using hge, hlt⟩
    · rename_i hng
      exact ih d hd (by omega)

theorem bitLengthBig_bounds (l : List Nat) (hw : WfBig l) (h0 : toNatBig l ≠ 0) :
    2 ^ (bitLengthBig l - 1) ≤ toNatBig l ∧ toNatBig l < 2 ^ bitLengthBig l := by
  unfold bitLengthBig
  rw [if_neg (by
    intro h
    exact h0 ((isZeroBig_iff l hw).mp h))]
  obtain ⟨hne, hb, hnorm⟩ := hw
  have hdecomp := (List.dropLast_append_getLast hne).symm
  have hlastq := List.getLast?_eq_getLast l hne
  set t := l.getLast hne with ht
  have htop : l.getLast?.getD 0 = t := by rw [hlastq]; rfl
  rw [htop]
  have htlt : t < 2 ^ 32 := hb t (List.getLast_mem hne)
  have htne : t ≠ 0 := by
    rcases Nat.lt_or_ge 1 l.length with hlen | hlen
    · have := hnorm hlen
      rw [htop] at this
      exact this
    · -- single limb: the value is the limb itself
      intro ht0
      apply h0
      have hlen1 : 1 ≤ l.length := List.length_pos.mpr hne
      have hl1 : l.length = 1 := by omega
      rcases l with - | ⟨d, rest⟩
      · exact absurd rfl hne
      · have : rest = [] := by
          rw [List.length_cons] at hl1
          exact List.length_eq_zero.mp (by omega)
        subst this
        have hd : d = t := by simp [ht, List.getLast]
        rw [hd, ht0]
        rfl
  obtain ⟨hlow, hhigh⟩ := bitsAux_bounds 32 t (by omega) htlt
  rw [show bitsAux 32 t = bits32 t from rfl] at hlow hhigh
  have hval : toNatBig l = toNatBig l.dropLast + 2 ^ (32 * l.dropLast.length) * t := by
    conv_lhs => rw [hdecomp]
    rw [toNatBig_append]
    simp [toNatBig]
  have hlow2 := toNatBig_lt l.dropLast
    (fun d hd => hb d (List.dropLast_subset l hd))
  have hlen2 : l.dropLast.length = l.length - 1 := List.length_dropLast l
  constructor
  · have hbits1 : 1 ≤ bits32 t := by
      unfold bits32 at *
      by_contra hz
      push_neg at hz
      have : bitsAux 32 t = 0 := by omega
      rw [this] at hhigh
      omega
    have : 2 ^ ((l.length - 1) * 32 + bits32 t - 1) =
        2 ^ (32 * (l.length - 1)) * 2 ^ (bits32 t - 1) := by
      rw [← pow_add]
      congr 1
      omega
    rw [this, hval, hlen2]
    calc 2 ^ (32 * (l.length - 1)) * 2 ^ (bits32 t - 1)
        ≤ 2 ^ (32 * (l.length - 1)) * t := Nat.mul_le_mul_left _ hlow
      _ ≤ toNatBig l.dropLast + 2 ^ (32 * (l.length - 1)) * t := by omega
  · have : 2 ^ ((l.length - 1) * 32 + bits32 t) =
        2 ^ (32 * (l.length - 1)) * 2 ^ bits32 t := by
      rw [← pow_add]
      congr 1
      omega
    rw [this, hval, hlen2]
    rw [hlen2] at hlow2
    calc toNatBig l.dropLast + 2 ^ (32 * (l.length - 1)) * t
        < 2 ^ (32 * (l.length - 1)) + 2 ^ (32 * (l.length - 1)) * t := by omega
      _ = 2 ^ (32 * (l.length - 1)) * (t + 1) := by ring
      _ ≤ 2 ^ (32 * (l.length - 1)) * 2 ^ bits32 t :=
          Nat.mul_le_mul_left _ (by omega)

theorem moduloShiftLoop_spec : ∀ (k : Nat) (m : List Nat), WfBig m →
    WfBig (moduloShiftLoop k m) ∧
    toNatBig (moduloShiftLoop k m) = toNatBig m * 2 ^ k := by
  intro k
  induction k with
  | zero => intro m hm; exact ⟨hm, by simp [moduloShiftLoop]⟩
  | succ k ih =>
    intro m hm
    simp only [moduloShiftLoop]
    obtain ⟨hwf, hval⟩ := ih (shl1Big m) (shl1Big_wf m hm.2.1)
    refine ⟨hwf, ?_⟩
    rw [hval, shl1Big_toNat]
    ring

theorem length_le_of_wf_le (a b : List Nat) (ha : WfBig a) (hb : WfBig b)
    (h : toNatBig a ≤ toNatBig b) : a.length ≤ b.length := by
  by_contra hgt
  push_neg at hgt
  have hb1 : 1 ≤ b.length := List.length_pos.mpr hb.1
  have hva := toNatBig_ge_of_wf a ha (by omega)
  have hvb := toNatBig_lt b hb.2.1
  have : 2 ^ (32 * b.length) ≤ 2 ^ (32 * (a.length - 1)) :=
    Nat.pow_le_pow_right (by omega) (by omega)
  omega

theorem moduloSubLoop_spec (m : List Nat) (_hm : WfBig m) (_hm0 : toNatBig m ≠ 0) :
    ∀ (k : Nat) (res smod : List Nat), WfBig res → WfBig smod →
      toNatBig smod = toNatBig m * 2 ^ k →
      toNatBig res < 2 * toNatBig smod →
      WfBig (moduloSubLoop (k + 1) res smod) ∧
      toNatBig (moduloSubLoop (k + 1) res smod) < toNatBig m := by
  intro k
  induction k with
  | zero =>
    intro res smod hres hsmod hval hlt
    simp only [moduloSubLoop]
    rw [cmpBig_eq_compare res smod hres hsmod]
    by_cases hge : toNatBig smod ≤ toNatBig res
    · rw [if_pos (by rw [Ne, Nat.compare_eq_lt]; omega)]
      have hsub := subBig_toNat res smod hres.2.1 hsmod.2.1
        (length_le_of_wf_le smod res hsmod hres hge) hge
      refine ⟨subBig_wf res smod hres.1 hres.2.1, ?_⟩
      rw [hsub]
      simp only [pow_zero, mul_one] at hval
      omega
    · rw [if_neg (by rw [Ne, Nat.compare_eq_lt]; omega)]
      simp only [pow_zero, mul_one] at hval
      exact ⟨hres, by omega⟩
  | succ k ih =>
    intro res smod hres hsmod hval hlt
    have hstep : moduloSubLoop (k + 1 + 1) res smod =
        moduloSubLoop (k + 1)
          (if cmpBig res smod ≠ .lt then subBig res smod else res)
          (shr1Big smod) := rfl
    rw [hstep]
    have hr2 : WfBig (if cmpBig res smod ≠ .lt then subBig res smod else res) ∧
        toNatBig (if cmpBig res smod ≠ .lt then subBig res smod else res) <
          toNatBig smod := by
      rw [cmpBig_eq_compare res smod hres hsmod]
      by_cases hge : toNatBig smod ≤ toNatBig res
      · rw [if_pos (by rw [Ne, Nat.compare_eq_lt]; omega)]
        have hsub := subBig_toNat res smod hres.2.1 hsmod.2.1
          (length_le_of_wf_le smod res hsmod hres hge) hge
        exact ⟨subBig_wf res smod hres.1 hres.2.1, by rw [hsub]; omega⟩
      · rw [if_neg (by rw [Ne, Nat.compare_eq_lt]; omega)]
        exact ⟨hres, by omega⟩
    have h2 : toNatBig smod = 2 * (toNatBig m * 2 ^ k) := by
      rw [hval, pow_succ]
      ring
    have hshr : toNatBig (shr1Big smod) = toNatBig m * 2 ^ k := by
      rw [shr1Big_toNat smod hsmod.2.1, h2]
      omega
    apply ih _ (shr1Big smod) hr2.1 (shr1Big_wf smod hsmod.1 hsmod.2.1) hshr
    rw [hshr]
    have := hr2.2
    rw [h2] at this
    omega

theorem moduloBig_spec (self m : List Nat) (hs : WfBig self) (hm : WfBig m)
    (hm0 : toNatBig m ≠ 0) :
    WfBig (moduloBig self m) ∧ toNatBig (moduloBig self m) < toNatBig m := by
  unfold moduloBig
  rw [cmpBig_eq_compare self m hs hm]
  by_cases hlt : toNatBig self < toNatBig m
  · rw [if_pos (Nat.compare_eq_lt.mpr hlt)]
    exact ⟨hs, hlt⟩
  · rw [if_neg (by rw [Nat.compare_eq_lt]; omega)]
    push_neg at hlt
    have hs0 : toNatBig self ≠ 0 := by omega
    obtain ⟨hmlow, hmhigh⟩ := bitLengthBig_bounds m hm hm0
    obtain ⟨hslow, hshigh⟩ := bitLengthBig_bounds self hs hs0
    have hble : bitLengthBig m ≤ bitLengthBig self := by
      by_contra hgt
      push_neg at hgt
      have : 2 ^ bitLengthBig self ≤ 2 ^ (bitLengthBig m - 1) :=
        Nat.pow_le_pow_right (by omega) (by omega)
      omega
    rw [if_neg (by omega)]
    obtain ⟨hsmwf, hsmval⟩ :=
      moduloShiftLoop_spec (bitLengthBig self - bitLengthBig m) m hm
    have hblm1 : 1 ≤ bitLengthBig m := by
      by_contra hz
      push_neg at hz
      have hz0 : bitLengthBig m = 0 := by omega
      rw [hz0] at hmhigh
      simp at hmhigh
      omega
    apply moduloSubLoop_spec m hm hm0 _ self _ hs hsmwf hsmval
    rw [hsmval]
    have h2 : 2 ^ bitLengthBig m ≤ 2 * toNatBig m := by
      obtain ⟨x, hx⟩ : ∃ x, bitLengthBig m = x + 1 := ⟨bitLengthBig m - 1, by omega⟩
      rw [hx, pow_succ]
      have hxle : 2 ^ x ≤ toNatBig m := by
        have hh := hmlow
        rw [hx] at hh
        simpa using hh
      omega
    calc toNatBig self < 2 ^ bitLengthBig self := hshigh
      _ = 2 ^ bitLengthBig m * 2 ^ (bitLengthBig self - bitLengthBig m) := by
          rw [← pow_add]
          congr 1
          omega
      _ ≤ (2 * toNatBig m) * 2 ^ (bitLengthBig self - bitLengthBig m) :=
          Nat.mul_le_mul h2 (le_refl _)
      _ = 2 * (toNatBig m * 2 ^ (bitLengthBig self - bitLengthBig m)) := by
          ring

theorem foldl_length_invariant {α : Type} (f : List Nat → α → List Nat)
    (hf : ∀ acc x, (f acc x).length = acc.length) :
    ∀ (l : List α) (acc : List Nat), (l.foldl f acc).length = acc.length := by
  intro l
  induction l with
  | nil => intro acc; rfl
  | cons x xs ih =>
    intro acc
    rw [List.foldl_cons, ih, hf]

theorem mulSlots_length (a b : List Nat) :
    (mulSlots a b).length = a.length + b.length := by
  unfold mulSlots
  rw [foldl_length_invariant _ ?_ (List.range a.length)
      (List.replicate (a.length + b.length) 0)]
  · exact List.length_replicate _ _
  · intro acc i
    rw [foldl_length_invariant _ ?_ (List.range b.length) acc]
    intro acc2 j
    exact List.length_set acc2 _ _

theorem mulCarry_length : ∀ (l : List Nat) (c : Nat),
    (mulCarry l c).length = l.length := by
  intro l
  induction l with
  | nil => intro c; rfl
  | cons d rest ih => intro c; simp [mulCarry, ih]

theorem mulCarry_limbs : ∀ (l : List Nat) (c : Nat), ∀ x ∈ mulCarry l c, x < 2 ^ 32 := by
  intro l
  induction l with
  | nil => intro c x hx; simp [mulCarry] at hx
  | cons d rest ih =>
    intro c x hx
    simp only [mulCarry, List.mem_cons] at hx
    rcases hx with hx | hx
    · subst hx
      exact Nat.mod_lt _ (by omega)
    · exact ih _ x hx

theorem mulBig_wf (a b : List Nat) (ha : a ≠ []) (_hb : b ≠ []) :
    WfBig (mulBig a b) := by
  apply trimDigits_wf
  · intro h
    have h1 := mulCarry_length (mulSlots a b) 0
    rw [h] at h1
    have h2 := mulSlots_length a b
    rw [← h1] at h2
    have ha1 : 1 ≤ a.length := List.length_pos.mpr ha
    simp at h2
    omega
  · exact mulCarry_limbs (mulSlots a b) 0

theorem modPowLoop_spec (m : List Nat) (hm : WfBig m) (hm0 : toNatBig m ≠ 0) :
    ∀ (fuel : Nat) (exp result base : List Nat), WfBig exp → WfBig result →
      WfBig base → toNatBig exp < 2 ^ fuel →
      (toNatBig result < toNatBig m ∨ toNatBig result = 1) →
      ∃ r, modPowLoop m fuel result base exp = some r ∧ WfBig r ∧
        (toNatBig r < toNatBig m ∨ toNatBig r = 1) := by
  intro fuel
  induction fuel with
  | zero =>
    intro exp result base he hres hbase hlt hinv
    have hz : isZeroBig exp = true := (isZeroBig_iff exp he).mpr (by omega)
    exact ⟨result, by simp [modPowLoop, hz], hres, hinv⟩
  | succ fuel ih =>
    intro exp result base he hres hbase hlt hinv
    by_cases hz : isZeroBig exp = true
    · exact ⟨result, by simp [modPowLoop, hz], hres, hinv⟩
    · have hres2 : WfBig (if isOddBig exp then moduloBig (mulBig result base) m
          else result) ∧
          (toNatBig (if isOddBig exp then moduloBig (mulBig result base) m
            else result) < toNatBig m ∨
           toNatBig (if isOddBig exp then moduloBig (mulBig result base) m
            else result) = 1) := by
        by_cases ho : isOddBig exp
        · rw [if_pos ho]
          have := moduloBig_spec (mulBig result base) m
            (mulBig_wf result base hres.1 hbase.1) hm hm0
          exact ⟨this.1, Or.inl this.2⟩
        · rw [if_neg ho]
          exact ⟨hres, hinv⟩
      have hbase2 := moduloBig_spec (mulBig base base) m
        (mulBig_wf base base hbase.1 hbase.1) hm hm0
      have hexp2wf := shr1Big_wf exp he.1 he.2.1
      have hexp2val : toNatBig (shr1Big exp) < 2 ^ fuel := by
        rw [shr1Big_toNat exp he.2.1]
        rw [pow_succ] at hlt
        omega
      obtain ⟨r, hr, hrwf, hrinv⟩ := ih (shr1Big exp) _ (moduloBig (mulBig base base) m)
        hexp2wf hres2.1 hbase2.1 hexp2val hres2.2
      refine ⟨r, ?_, hrwf, hrinv⟩
      simp only [modPowLoop, hz, if_false]
      exact hr

theorem mod_pow_spec (base exp m : List Nat) (hb : WfBig base) (he : WfBig exp)
    (hm : WfBig m) (hm0 : toNatBig m ≠ 0) :
    ∃ r, mod_pow base exp m = some r ∧ WfBig r ∧
      (toNatBig r < toNatBig m ∨ toNatBig r = 1) := by
  unfold mod_pow
  rw [if_neg (by
    intro h
    exact hm0 ((isZeroBig_iff m hm).mp h))]
  exact modPowLoop_spec m hm hm0 (32 * exp.length) exp (fromU32 1) (moduloBig base m)
    he (by decide) (moduloBig_spec base m hb hm hm0).1
    (toNatBig_lt exp he.2.1) (Or.inr (by decide))

theorem beChunks_ne_nil : ∀ (l : List Nat), l ≠ [] → beChunks l ≠ [] := by
  intro l hne
  rcases l with - | ⟨b0, - | ⟨b1, - | ⟨b2, - | ⟨b3, rest⟩⟩⟩⟩
  · exact absurd rfl hne
  all_goals simp [beChunks]

theorem beChunks_limbs : ∀ (n : Nat) (l : List Nat), l.length ≤ n →
    (∀ b ∈ l, b < 256) → ∀ d ∈ beChunks l, d < 2 ^ 32 := by
  intro n
  induction n with
  | zero =>
    intro l hlen _ d hd
    have : l = [] := List.length_eq_zero.mp (by omega)
    subst this
    simp [beChunks] at hd
  | succ n ih =>
    intro l hlen hb d hd
    rcases l with - | ⟨b0, - | ⟨b1, - | ⟨b2, - | ⟨b3, rest⟩⟩⟩⟩
    · simp [beChunks] at hd
    · simp only [beChunks, List.mem_singleton] at hd
      have := hb b0 (by simp)
      omega
    · simp only [beChunks, List.mem_singleton] at hd
      have h0 := hb b0 (by simp)
      have h1 := hb b1 (by simp)
      omega
    · simp only [beChunks, List.mem_singleton] at hd
      have h0 := hb b0 (by simp)
      have h1 := hb b1 (by simp)
      have h2 := hb b2 (by simp)
      omega
    · simp only [beChunks, List.mem_cons] at hd
      rcases hd with hd | hd
      · have h0 := hb b0 (by simp)
        have h1 := hb b1 (by simp)
        have h2 := hb b2 (by simp)
        have h3 := hb b3 (by simp)
        omega
      · apply ih rest ?_ ?_ d hd
        · simp at hlen
          omega
        · intro b hbm
          exact hb b (by simp [hbm])

theorem fromBeBytes_wf (bytes : List Nat) (hb : ∀ b ∈ bytes, b < 256) :
    WfBig (fromBeBytes bytes) := by
  unfold fromBeBytes
  by_cases he : bytes.isEmpty
  · rw [if_pos he]
    decide
  · rw [if_neg he]
    have hne : bytes ≠ [] := fun h => he (by rw [h]; rfl)
    apply trimDigits_wf
    · exact beChunks_ne_nil bytes.reverse (by
        intro h
        exact hne (List.reverse_eq_nil_iff.mp h))
    · exact beChunks_limbs bytes.reverse.length bytes.reverse (le_refl _)
        (fun b hbm => hb b (List.mem_reverse.mp hbm))

theorem dropLeadingZeros_length_le : ∀ (l : List Nat),
    (dropLeadingZeros l).length ≤ l.length := by
  intro l
  induction l with
  | nil => simp [dropLeadingZeros]
  | cons b tail ih =>
    rcases tail with - | ⟨c, rest⟩
    · simp [dropLeadingZeros]
    · simp only [dropLeadingZeros]
      split
      · exact le_trans ih (by simp)
      · exact le_refl _

theorem flatten_limbBE_length : ∀ (l : List Nat),
    ((l.map limbBE).flatten).length = 4 * l.length := by
  intro l
  induction l with
  | nil => simp
  | cons d rest ih =>
    simp only [List.map_cons, List.flatten_cons, List.length_append, ih,
      List.length_cons, limbBE, List.length_nil]
    omega

theorem to_be_bytes_padded_length (l : List Nat) (minLen : Nat) :
    (to_be_bytes_padded l minLen).length =
      max minLen (dropLeadingZeros ((l.reverse.map limbBE).flatten)).length := by
  unfold to_be_bytes_padded
  rw [List.length_append, List.length_replicate]
  omega

theorem westwoodN_wf : WfBig westwoodN := by decide

theorem westwoodN_ne_zero : toNatBig westwoodN ≠ 0 := by decide

theorem westwoodN_lt : toNatBig westwoodN < 2 ^ (32 * 11) := by decide

theorem decrypt_block_spec (ct : List Nat) (hct : ∀ b ∈ ct, b < 256) :
    ∃ k, decrypt_block ct = some k ∧ 41 ≤ k.length ∧ k.length ≤ 44 := by
  unfold decrypt_block
  obtain ⟨r, hr, hrwf, hrinv⟩ := mod_pow_spec (fromBeBytes ct) (fromU32 65537)
    westwoodN (fromBeBytes_wf ct hct) (by decide) westwoodN_wf westwoodN_ne_zero
  rw [hr]
  refine ⟨_, rfl, ?_, ?_⟩ <;>
    rw [show plain_block_size = 41 from rfl, to_be_bytes_padded_length]
  · omega
  · have hrlen : r.length ≤ 11 := by
      apply length_le_of_toNat_lt r hrwf 11 (by omega)
      rcases hrinv with h | h
      · have := westwoodN_lt
        omega
      · rw [h]
        exact Nat.one_lt_two_pow (by omega)
    have hdrop := dropLeadingZeros_length_le ((r.reverse.map limbBE).flatten)
    have hflat := flatten_limbBE_length r.reverse
    rw [List.length_reverse] at hflat
    omega

/-- **C10** — `decrypt_mix_key` on a blob shorter than 80 bytes never
errors: an incomplete 40-byte ciphertext block is silently skipped, so the
returned key is shorter than 56 bytes — empty whenever the blob is shorter
than 40 bytes, and exactly the first block's decryption when
`40 ≤ len < 80`. -/
theorem decrypt_mix_key_short_input (blob : List Nat)
    (hbytes : ∀ b ∈ blob, b < 256) (hshort : blob.length < 80) :
    ∃ key, decrypt_mix_key blob = some key ∧ key.length < 56 ∧
      (blob.length < 40 → key = []) ∧
      (40 ≤ blob.length → decrypt_block (blob.take 40) = some key) := by
  unfold decrypt_mix_key
  by_cases h40 : blob.length < 40
  · rw [if_neg (by omega), if_neg (by omega)]
    exact ⟨[], rfl, by simp, fun _ => rfl, fun h => absurd h (by omega)⟩
  · push_neg at h40
    obtain ⟨k, hk, hk41, hk44⟩ := decrypt_block_spec (blob.take 40)
      (fun b hb => hbytes b (List.mem_of_mem_take hb))
    rw [if_pos h40, if_neg (by omega), hk]
    have htake : (k ++ []).take 56 = k := by
      rw [List.append_nil]
      exact List.take_of_length_le (by omega)
    refine ⟨k, ?_, by omega, fun h => absurd h (by omega), fun _ => rfl⟩
    show some ((k ++ []).take 56) = some k
    rw [htake]

theorem decrypt_mix_key_short_input_witness :
    (∀ b ∈ [1, 2, 3], b < 256) ∧ List.length [1, 2, 3] < 80 ∧
    ∃ key, decrypt_mix_key [1, 2, 3] = some key ∧ key.length < 56 ∧
      (List.length [1, 2, 3] < 40 → key = []) ∧
      (40 ≤ List.length [1, 2, 3] → decrypt_block (List.take 40 [1, 2, 3]) = some key) :=
  ⟨by decide, by decide, decrypt_mix_key_short_input [1, 2, 3] (by decide) (by decide)⟩

end RoninCnc

-- quick sanity checks against the repository's own unit tests
theorem sanity_check_1 : RoninCnc.lcw_decompress [0x83, 72, 101, 108, 108, 0x00] 100 =
    .ok [72, 101, 108, 108] := by decide
theorem sanity_check_2 : RoninCnc.lcw_decompress [0x80, 88, 0x00] 100 = .ok [88] := by decide
theorem sanity_check_3 : RoninCnc.lcw_decompress
    [0x83, 65, 66, 67, 68, 0x10, 0x04, 0x00] 100 =
    .ok [65, 66, 67, 68, 65, 66, 67, 68] := by decide
theorem sanity_check_4 : RoninCnc.lcw_decompress [0x80, 65, 0x70, 0x01, 0x00] 100 =
    .ok (List.replicate 11 65) := by decide
theorem sanity_check_5 : RoninCnc.lcw_decompress [0x00] 100 = .ok [] := by decide
theorem sanity_check_6 : (RoninCnc.lcw_decompress [0x80, 65, 0x10, 0x10, 0x00] 100).isOk = false := by decide
theorem sanity_check_7 : RoninCnc.lcw_compress [] 10 = .ok [0] := by decide
